import Mathlib

/-!
Verification of the node-graph state model of the visual-todoflow editor.

The definitions below are a shallow embedding of the TypeScript sources:

* `src/components/TodoList.tsx` — the topological linearization
  (`getOrderedTasks`), the task-order reconciliation effect, the
  sorted/unsorted partition, and the drag-reorder handler;
* `src/app/page.tsx` — node-id allocation (`getId`), add/paste/delete/cut
  node handlers, the connect handler, the save validation (`confirmSave`),
  the load-response application in `loadFlowchart`, and the startup
  local-storage cleanup (`cleanupLocalStorage`).

JavaScript `Map` objects keyed by node-id strings are modelled as functions
`String → Option β` (`Map.get` is application, `Map.set` is pointwise
update, `Map.has` is `Option.isSome`); JS numbers that are provably
integral in the modelled code are modelled as `Int` (or `Nat` where they
are provably non-negative); `undefined`/absent fields are `Option.none`.
-/

/-- 2D canvas position (reactflow `XYPosition`).  Coordinates are never
inspected by any modelled computation, only stored and copied, so the
JS floating-point coordinates are modelled by integers. -/
structure XYPosition where
  x : Int
  y : Int
deriving DecidableEq, Repr

/-- Type-specific node payload (the `NodeData` interface built in
`addNode`, page.tsx lines 456-463).  `none` models an absent or
`undefined` field. -/
structure NodeData where
  label : String
  text : Option String := none
  imageUrl : Option String := none
  fileName : Option String := none
  fileUrl : Option String := none
  url : Option String := none
deriving DecidableEq, Repr

/-- A canvas node (reactflow `Node` as used by this application:
id, type tag, position, payload, and the transient `selected` flag). -/
structure FlowNode where
  id : String
  type : String
  position : XYPosition
  data : NodeData
  selected : Bool := false
deriving DecidableEq, Repr

/-- Arrowhead marker attached to an edge (`markerEnd` object built in
`onConnect`, page.tsx lines 405-410). -/
structure EdgeMarker where
  type : String
  width : Int
  height : Int
  color : String
deriving DecidableEq, Repr

/-- Stroke style attached to an edge (`style` object built in `onConnect`,
page.tsx lines 411-414). -/
structure EdgeStyle where
  strokeWidth : Int
  stroke : String
deriving DecidableEq, Repr

/-- A directed edge (reactflow `Edge` as used by this application). -/
structure FlowEdge where
  id : String
  source : String
  target : String
  sourceHandle : Option String := none
  targetHandle : Option String := none
  markerEnd : Option EdgeMarker := none
  style : Option EdgeStyle := none
deriving DecidableEq, Repr

/-! ## JS number/string model

`getId` (page.tsx 440-453) turns node-id strings into numbers with
`parseInt` and renders the fresh counter value back to a string with a
template literal.  JS numbers are IEEE-754 float64: `parseInt` first
computes the exact mathematical integer denoted by the digits
(`parseIntJS` below) and then returns the nearest float64 (`toF64`);
arithmetic rounds back to float64 after every operation; the template
literal prints the shortest digit string reading back as the value
(`jsNumToString`). -/

/-- Exact decimal digit characters of `n`, most significant first, by
repeated division.  The first argument is fuel; `n` itself is always
sufficient fuel since `n / 10 < n` for `n ≠ 0`. -/
def natDigitsAux : Nat → Nat → List Char
  | 0, _ => []
  | fuel + 1, n =>
    if n = 0 then [] else natDigitsAux fuel (n / 10) ++ [Nat.digitChar (n % 10)]

/-- Exact decimal rendering of a natural number (the mathematical digit
string; JS prints exactly this for integers below `2^53`, where every
integer is its own float64 value and its own shortest reading). -/
def natToString (n : Nat) : String :=
  if n = 0 then "0" else String.mk (natDigitsAux n n)

/-- Value of a decimal digit character, `none` for non-digits. -/
def decDigit (c : Char) : Option Nat :=
  if '0' ≤ c ∧ c ≤ '9' then some (c.toNat - '0'.toNat) else none

/-- Value of a hexadecimal digit character, `none` for non-digits. -/
def hexDigit (c : Char) : Option Nat :=
  if '0' ≤ c ∧ c ≤ '9' then some (c.toNat - '0'.toNat)
  else if 'a' ≤ c ∧ c ≤ 'f' then some (c.toNat - 'a'.toNat + 10)
  else if 'A' ≤ c ∧ c ≤ 'F' then some (c.toNat - 'A'.toNat + 10)
  else none

/-- Consume the longest digit run at the head of the character list,
accumulating the value; the Boolean records whether at least one digit
was consumed (JS `parseInt` yields `NaN` otherwise). -/
def parseDigitRun (dv : Char → Option Nat) (base : Nat) :
    List Char → Nat → Bool → Nat × Bool
  | [], acc, seen => (acc, seen)
  | c :: cs, acc, seen =>
    match dv c with
    | some d => parseDigitRun dv base cs (acc * base + d) true
    | none => (acc, seen)

/-- JS `parseInt(s)` with no radix argument: skip leading whitespace,
read an optional sign, switch to base 16 after a `0x`/`0X` marker,
otherwise parse the longest decimal digit run; `none` models `NaN`. -/
def parseIntJS (s : String) : Option Int :=
  let cs := s.data.dropWhile Char.isWhitespace
  let neg : Bool := cs.head? == some '-'
  let signed : Bool := neg || (cs.head? == some '+')
  let cs₁ := if signed then cs.tail else cs
  let hex : Bool := (cs₁.head? == some '0') &&
    ((cs₁.tail.head? == some 'x') || (cs₁.tail.head? == some 'X'))
  let body := if hex then cs₁.drop 2 else cs₁
  let p := if hex then parseDigitRun hexDigit 16 body 0 false
           else parseDigitRun decDigit 10 body 0 false
  if p.2 then some ((if neg then -1 else 1) * (p.1 : Int)) else none

/-- Floor of the base-2 logarithm by repeated halving (`0` for `0` and
`1`).  The first argument is fuel; `n` itself is always sufficient fuel
since `n / 2 < n` for `n ≠ 0`. -/
def floorLog2Aux : Nat → Nat → Nat
  | 0, _ => 0
  | fuel + 1, n => if n ≤ 1 then 0 else floorLog2Aux fuel (n / 2) + 1

/-- Floor of the base-2 logarithm of `n`. -/
def floorLog2 (n : Nat) : Nat :=
  floorLog2Aux n n

/-- Round-to-nearest, ties-to-even, of a natural number to 53 significant
binary digits: the magnitude the nearest float64 stores for an exact
non-negative integer (the caller turns out-of-range magnitudes into an
infinity).  Below `2^53` every integer is exact; above, `n` is rounded
to the nearest multiple of its unit in the last place `2^(log2 n - 52)`,
a tie going to the even quotient. -/
def roundNat (n : Nat) : Nat :=
  if floorLog2 n ≤ 52 then n
  else
    let k := floorLog2 n - 52
    let q := n / 2 ^ k
    let r := n % 2 ^ k
    if 2 * r < 2 ^ k then q * 2 ^ k
    else if 2 ^ k < 2 * r then (q + 1) * 2 ^ k
    else if q % 2 = 0 then q * 2 ^ k else (q + 1) * 2 ^ k

/-- A JS `number` as it occurs in `getId`: an integer-valued float64
(carried as its exact integer value) or an infinity.  `NaN` never
reaches the arithmetic there — the `isNaN` guard screens it off — and is
modelled by `Option.none` at the `parseInt` layer. -/
inductive JsNum where
  | posInf
  | negInf
  | fin (val : Int)
deriving DecidableEq, Repr

/-- The float64 nearest an exact integer: round the magnitude to 53
significant bits, overflowing to an infinity beyond the float64 range
(rounded magnitude at least `2^1024`, i.e. of binary exponent at least
`1024`). -/
def toF64 (z : Int) : JsNum :=
  let m := roundNat z.natAbs
  if 1024 ≤ floorLog2 m then (if z < 0 then JsNum.negInf else JsNum.posInf)
  else JsNum.fin (if z < 0 then -(m : Int) else (m : Int))

/-- JS `parseInt(s)` as the program observes it: ECMAScript evaluates the
digits to a mathematical integer (`parseIntJS`) and returns the Number
value for it, the nearest float64; `none` models `NaN`. -/
def parseIntJS64 (s : String) : Option JsNum :=
  (parseIntJS s).map toF64

/-- `Math.max` on the non-`NaN` numbers reaching it in `getId`. -/
def jmax : JsNum → JsNum → JsNum
  | JsNum.posInf, _ => JsNum.posInf
  | _, JsNum.posInf => JsNum.posInf
  | JsNum.negInf, b => b
  | a, JsNum.negInf => a
  | JsNum.fin a, JsNum.fin b => JsNum.fin (max a b)

/-- The float64 increment `x + 1` (the only addition `getId` performs,
in `maxId + 1` and in `id++`): the exact sum, rounded back to float64. -/
def jadd1 : JsNum → JsNum
  | JsNum.posInf => JsNum.posInf
  | JsNum.negInf => JsNum.negInf
  | JsNum.fin a => toF64 (a + 1)

/-- The float64 comparison `<=` on non-`NaN` values (the `id <= maxId`
guard in `getId`). -/
def jle : JsNum → JsNum → Bool
  | JsNum.negInf, _ => true
  | JsNum.posInf, JsNum.posInf => true
  | JsNum.posInf, _ => false
  | _, JsNum.posInf => true
  | JsNum.fin _, JsNum.negInf => false
  | JsNum.fin a, JsNum.fin b => decide (a ≤ b)

/-- Number of decimal digits of a positive natural number. -/
def digits10 (n : Nat) : Nat :=
  (natDigitsAux n n).length

/-- One precision step of the ECMAScript `Number::toString` digit search:
the integer `s` of exactly `k` decimal digits (if any) whose value
`s * 10 ^ (digits10 N - k)` reads back as the float64 magnitude `N`.  Of
the two enclosing candidates the closer one is chosen; a tie goes to the
even `s` (ECMA-262, Number::toString step 5). -/
def pickDigits (N k : Nat) : Option Nat :=
  let e := digits10 N - k
  let q := N / 10 ^ e
  let r := N % 10 ^ e
  let ok1 := decide (10 ^ (k - 1) ≤ q) && decide (roundNat (q * 10 ^ e) = N)
  let ok2 := decide (q + 1 < 10 ^ k) && decide (roundNat ((q + 1) * 10 ^ e) = N)
  if ok1 && ok2 then
    if 2 * r < 10 ^ e then some q
    else if 10 ^ e < 2 * r then some (q + 1)
    else if q % 2 = 0 then some q else some (q + 1)
  else if ok1 then some q
  else if ok2 then some (q + 1)
  else none

/-- Scan precisions `k, k+1, ...` for the smallest one whose digit
search succeeds, returning the digits and their count.  The first
argument is fuel: for an actual float64 magnitude `N`, precision
`digits10 N` always succeeds (the full digit string reads back exactly),
so `digits10 N` steps from `k = 1` suffice; the fuel-exhausted default
is unreachable on such values. -/
def shortestDigits : Nat → Nat → Nat → Nat × Nat
  | 0, N, _ => (N, digits10 N)
  | fuel + 1, N, k =>
    match pickDigits N k with
    | some s => (s, k)
    | none => shortestDigits fuel N (k + 1)

/-- ECMAScript `Number::toString(10)` of a non-negative integer-valued
float64 with exact value `N`: the shortest digit string that reads back
as `N`, printed as plain digits padded with zeros below `10^21` and in
exponent notation (`d.dddde+NN`) from `10^21` on. -/
def jsNatToString (N : Nat) : String :=
  if N = 0 then "0"
  else
    let n := digits10 N
    let sk := shortestDigits n N 1
    let ds := natDigitsAux sk.1 sk.1
    if n ≤ 21 then String.mk (ds ++ List.replicate (n - sk.2) '0')
    else if sk.2 = 1 then
      String.mk ds ++ "e+" ++ natToString (n - 1)
    else
      String.mk (ds.take 1) ++ "." ++ String.mk (ds.drop 1) ++ "e+" ++
        natToString (n - 1)

/-- A JS number rendered by a template literal. -/
def jsNumToString : JsNum → String
  | JsNum.posInf => "Infinity"
  | JsNum.negInf => "-Infinity"
  | JsNum.fin v =>
    if v < 0 then "-" ++ jsNatToString v.natAbs else jsNatToString v.toNat

/-! ## Linearizer: `getOrderedTasks` (TodoList.tsx lines 33-82)

Kahn's algorithm.  The JS `Map`s `nodeMap`, `inDegree`, `adj` are
modelled as functions `String → Option _`; `Map.set` is `mset`. -/

/-- Pointwise update, modelling `Map.set`. -/
def mset {β : Type} (m : String → Option β) (k : String) (v : β) :
    String → Option β :=
  fun k' => if k' = k then some v else m k'

/-- `new Map(nodes.map(node => [node.id, node]))` (line 35): later
entries overwrite earlier ones. -/
def buildNodeMap (nodes : List FlowNode) : String → Option FlowNode :=
  nodes.foldl (fun m n => mset m n.id n) (fun _ => none)

/-- The first `nodes.forEach` (lines 39-42): every node id is bound to
in-degree `0` and an empty adjacency list. -/
def initMaps (nodes : List FlowNode) :
    (String → Option Int) × (String → Option (List String)) :=
  nodes.foldl (fun p n => (mset p.1 n.id 0, mset p.2 n.id [])) ⟨fun _ => none, fun _ => none⟩

/-- One step of the `edges.forEach` (lines 44-50): an edge is processed
only when both endpoints are present in `nodeMap`; it is appended to the
source's adjacency list and increments the target's in-degree. -/
def processEdge (nodeMap : String → Option FlowNode)
    (p : (String → Option (List String)) × (String → Option Int)) (e : FlowEdge) :
    (String → Option (List String)) × (String → Option Int) :=
  if (nodeMap e.source).isSome && (nodeMap e.target).isSome then
    let adj' := match p.1 e.source with
      | some l => mset p.1 e.source (l ++ [e.target])
      | none => p.1
    let deg' := mset p.2 e.target ((p.2 e.target).getD 0 + 1)
    (adj', deg')
  else p

/-- The seeding pass (lines 52-57): node ids whose in-degree is exactly
`0` enter the queue in the node list's order. -/
def initialQueue (nodes : List FlowNode) (inDegree : String → Option Int) :
    List String :=
  nodes.foldl (fun q n => if inDegree n.id = some 0 then q ++ [n.id] else q) []

/-- One step of `adj.get(u)?.forEach` (lines 66-72): decrement the
neighbour's in-degree (`(inDegree.get(v) || 0) - 1`) and enqueue it when
the decremented value is exactly `0`. -/
def stepNeighbor (st : (String → Option Int) × List String) (v : String) :
    (String → Option Int) × List String :=
  let cur := (st.1 v).getD 0 - 1
  (mset st.1 v cur, if cur = 0 then st.2 ++ [v] else st.2)

/-- Processing all neighbours of a dequeued node, collecting the ids
enqueued by this pass. -/
def processNeighbors (inDegree : String → Option Int) (neighbors : List String) :
    (String → Option Int) × List String :=
  neighbors.foldl stepNeighbor (inDegree, [])

/-- The `while (queue.length > 0)` loop (lines 59-73), with explicit
fuel: dequeue `u`, append the node registered under `u` (if any) to the
sorted list, then decrement the neighbours' in-degrees, enqueueing those
that reach `0`.  `getOrderedTasks` runs it with fuel `2 * nodes.length`,
which dominates the number of iterations: every dequeue consumes one of
the at most `nodes.length` seeded ids or one of the at most
`nodes.length` decremented-to-zero events (in-degrees only ever decrease
in the loop, so each id reaches `0` at most once). -/
def kahnLoop (nodeMap : String → Option FlowNode)
    (adj : String → Option (List String)) :
    Nat → List String → (String → Option Int) → List FlowNode → List FlowNode
  | 0, _, _, sortedList => sortedList
  | _ + 1, [], _, sortedList => sortedList
  | fuel + 1, u :: rest, inDegree, sortedList =>
    let sortedList' := match nodeMap u with
      | some n => sortedList ++ [n]
      | none => sortedList
    let st := processNeighbors inDegree ((adj u).getD [])
    kahnLoop nodeMap adj fuel (rest ++ st.2) st.1 sortedList'

/-- `getOrderedTasks` with the loop fuel exposed. -/
def getOrderedTasksAux (nodes : List FlowNode) (edges : List FlowEdge)
    (fuel : Nat) : List FlowNode :=
  let nodeMap := buildNodeMap nodes
  let im := initMaps nodes
  let pe := edges.foldl (processEdge nodeMap) (im.2, im.1)
  let queue := initialQueue nodes pe.2
  let sortedList := kahnLoop nodeMap pe.1 fuel queue pe.2 []
  if sortedList.length ≠ nodes.length then
    sortedList ++ nodes.filter (fun n => !(sortedList.any (fun sn => sn.id == n.id)))
  else sortedList

/-- Topological linearization of the graph (TodoList.tsx lines 33-82):
Kahn's algorithm, with all nodes left unvisited by the loop (cycles)
appended afterwards in their original relative order. -/
def getOrderedTasks (nodes : List FlowNode) (edges : List FlowEdge) :
    List FlowNode :=
  getOrderedTasksAux nodes edges (2 * nodes.length)

/-! ## TaskOrderController: the reconciliation effect and the partition
(TodoList.tsx lines 136-212) -/

/-- The `useEffect` body (lines 143-168): with no nodes the order is
reset to `[]`; otherwise the linearized id sequence is computed and, if
it differs from the current `taskOrder` in length or at any position,
replaces it wholesale. -/
def recomputeTaskOrder (nodes : List FlowNode) (edges : List FlowEdge)
    (taskOrder : List String) : List String :=
  if nodes.isEmpty then []
  else
    let initialOrderedIds := (getOrderedTasks nodes edges).map (fun n => n.id)
    let orderChanged :=
      initialOrderedIds.length ≠ taskOrder.length ∨
        ∃ i : Fin initialOrderedIds.length,
          taskOrder.get? i.val ≠ some (initialOrderedIds.get i)
    if orderChanged then initialOrderedIds else taskOrder

/-- `sortedTasks` (lines 206-208): the nodes listed by `taskOrder`, in
that order, skipping ids with no corresponding node. -/
def sortedTasks (nodes : List FlowNode) (taskOrder : List String) :
    List FlowNode :=
  taskOrder.filterMap (fun i => buildNodeMap nodes i)

/-- `unsortedTasks` (line 210): the nodes whose id does not occur in
`taskOrder`. -/
def unsortedTasks (nodes : List FlowNode) (taskOrder : List String) :
    List FlowNode :=
  nodes.filter (fun n => !(taskOrder.contains n.id))

/-- The dnd-kit `arrayMove` helper used by `handleDragEnd`: remove the
element at index `i` and re-insert it at index `j`. -/
def arrayMove (l : List String) (i j : Nat) : List String :=
  match l.get? i with
  | some x => (l.eraseIdx i).insertIdx j x
  | none => l

/-- `handleDragEnd` (lines 178-194), for a drop on a rendered item
(`over` present; the sortable context only reports ids occurring in
`taskOrder`): when the dragged id differs from the drop target, the
manual sequence is permuted with `arrayMove`. -/
def handleDragEnd (items : List String) (activeId overId : String) :
    List String :=
  if activeId ≠ overId then
    arrayMove items (items.indexOf activeId) (items.indexOf overId)
  else items

/-! ## GraphStore operations (page.tsx) -/

/-- The reduce in `getId` (page.tsx 442-445): the largest numeric node
id as a float64, starting from `0`; ids whose `parseInt` is `NaN` are
skipped by the `!isNaN(numId)` guard. -/
def maxNumericId (nodes : List FlowNode) : JsNum :=
  nodes.foldl (fun m n => match parseIntJS64 n.id with
    | some v => jmax m v
    | none => m) (JsNum.fin 0)

/-- `getId` (page.tsx 440-453).  The module-level counter `id` is passed
and returned explicitly: the counter is bumped to `maxId + 1` (a float64
add) when `id <= maxId`, the returned id string is the counter rendered
by the template literal, and the counter is post-incremented (another
float64 add). -/
def getId (nodes : List FlowNode) (counter : JsNum) : String × JsNum :=
  let maxId := maxNumericId nodes
  let c := if jle counter maxId then jadd1 maxId else counter
  (jsNumToString c, jadd1 c)

/-- The `switch (type)` in `addNode` (page.tsx 469-475) seeding the
type-specific default payload. -/
def nodeDataFor (type : String) : NodeData :=
  match type with
  | "text" => { label := "Text Input", text := some "" }
  | "image" => { label := "Image Upload", imageUrl := none }
  | "attachment" => { label := "File Attachment", fileName := none, fileUrl := none }
  | "social" => { label := "Social Post Link", url := some "" }
  | t => { label := t ++ " node" }

/-- The node collection together with the module-level id counter
(`let id = 1` at page.tsx line 96). -/
structure EditorState where
  nodes : List FlowNode
  counter : JsNum
deriving DecidableEq, Repr

/-- `addNode` (page.tsx 455-487): allocate a fresh id, seed the default
payload for the type, and append the node. -/
def addNode (st : EditorState) (type : String) (position : XYPosition) :
    EditorState :=
  let g := getId st.nodes st.counter
  { nodes := st.nodes ++
      [{ id := g.1, type := type, position := position, data := nodeDataFor type }],
    counter := g.2 }

/-- The paste branch of `handleMenuClick` (page.tsx 535-549): clone the
clipboard node, give it a fresh id and the clicked position, and clear
its selection flag. -/
def pasteNode (st : EditorState) (snapshot : FlowNode) (position : XYPosition) :
    EditorState :=
  let g := getId st.nodes st.counter
  { nodes := st.nodes ++
      [{ snapshot with id := g.1, position := position, selected := false }],
    counter := g.2 }

/-- A node-creating operation: palette/menu `addNode` or clipboard paste. -/
inductive GraphOp where
  | add (type : String) (position : XYPosition)
  | paste (snapshot : FlowNode) (position : XYPosition)
deriving DecidableEq, Repr

/-- Apply a sequence of node-creating operations in order. -/
def applyOps (st : EditorState) (ops : List GraphOp) : EditorState :=
  ops.foldl (fun st op => match op with
    | GraphOp.add t p => addNode st t p
    | GraphOp.paste n p => pasteNode st n p) st

/-- The `delete` case of `handleNodeMenuClick` (page.tsx 613-617): drop
the node and every edge with either endpoint equal to the target id.
The `cut` case (602-605) performs the same two filters. -/
def deleteNode (targetNodeId : String) (nodes : List FlowNode)
    (edges : List FlowEdge) : List FlowNode × List FlowEdge :=
  (nodes.filter (fun n => n.id ≠ targetNodeId),
   edges.filter (fun e => e.source ≠ targetNodeId && e.target ≠ targetNodeId))

/-- The `break-sort` case of `handleNodeMenuClick` (page.tsx 608-611):
remove every edge incident to the target node, leaving the nodes alone. -/
def breakSort (targetNodeId : String) (edges : List FlowEdge) : List FlowEdge :=
  edges.filter (fun e => e.source ≠ targetNodeId && e.target ≠ targetNodeId)

/-! ## Connect handler (page.tsx 400-422) -/

/-- A reactflow `Connection` reported by the canvas. -/
structure FlowConnection where
  source : String
  target : String
  sourceHandle : Option String := none
  targetHandle : Option String := none
deriving DecidableEq, Repr

/-- The default arrowhead attached by `onConnect` (page.tsx 405-410). -/
def defaultMarker : EdgeMarker :=
  { type := "arrowclosed", width := 20, height := 20, color := "#B1B1B7" }

/-- The default stroke style attached by `onConnect` (page.tsx 411-414). -/
def defaultStyle : EdgeStyle :=
  { strokeWidth := 2, stroke := "#B1B1B7" }

/-- A fresh edge id: the first candidate `edge-k`, `k ≤ edges.length`,
not already used by an existing edge; by pigeonhole one always exists. -/
def freshEdgeId (edges : List FlowEdge) : String :=
  match (List.range (edges.length + 1)).find?
      (fun k => !(edges.any (fun e => e.id == "edge-" ++ natToString k))) with
  | some k => "edge-" ++ natToString k
  | none => ""

/-- Modelled from the spec: the edge-append helper called by `onConnect`
is the canvas library's `addEdge`, whose source is not part of this
repository; per the spec it "rejects (no-op, reports nothing) if either
endpoint is absent; otherwise appends edge with a fresh unique id and a
default visual marker; permits parallel edges and self-loops". -/
def addEdgeModelled (nodes : List FlowNode) (edges : List FlowEdge)
    (conn : FlowConnection) (marker : EdgeMarker) (style : EdgeStyle) :
    List FlowEdge :=
  if nodes.any (fun n => n.id == conn.source) &&
      nodes.any (fun n => n.id == conn.target) then
    edges ++ [{ id := freshEdgeId edges, source := conn.source,
                target := conn.target, sourceHandle := conn.sourceHandle,
                targetHandle := conn.targetHandle, markerEnd := some marker,
                style := some style }]
  else edges

/-- `onConnect` (page.tsx 400-422): wrap the reported connection with the
default arrowhead and stroke style and hand it to the edge-append
helper. -/
def onConnect (nodes : List FlowNode) (edges : List FlowEdge)
    (conn : FlowConnection) : List FlowEdge :=
  addEdgeModelled nodes edges conn defaultMarker defaultStyle

/-! ## PersistenceCoordinator (page.tsx): load response, save
validation, local-storage cleanup -/

/-- The session state touched by `loadFlowchart` and `confirmSave`. -/
structure SessionState where
  nodes : List FlowNode
  edges : List FlowEdge
  tag : String
  uuid : String
  hasUnsavedChanges : Bool
deriving DecidableEq, Repr

/-- A decoded `/api/notion/load` response body.  `nodes`/`edges` are
`Option`s because the handler guards them with `?.` and `|| []`. -/
structure LoadResponse where
  nodes : Option (List FlowNode)
  edges : Option (List FlowEdge)
  tag : String
  uuid : String
deriving DecidableEq, Repr

/-- The `response.ok` branch of `loadFlowchart` (page.tsx 335-351)
applied to the state current when the response arrives: if the fetched
node count, edge count, or tag differs from the current one, nodes,
edges and tag are replaced by the fetched data; the active uuid is
unconditionally overwritten with the response's uuid and the unsaved
flag is cleared.  `requestUuid` (the id the request was issued for) is
taken as an argument to make explicit that the handler never consults
it: no comparison against `st.uuid` occurs. -/
def applyLoadResponse (st : SessionState) (requestUuid : String)
    (data : LoadResponse) : SessionState :=
  let _ := requestUuid
  let st' :=
    if data.nodes.map List.length ≠ some st.nodes.length ∨
        data.edges.map List.length ≠ some st.edges.length ∨
        st.tag ≠ data.tag then
      { st with nodes := data.nodes.getD [], edges := data.edges.getD [],
                tag := data.tag }
    else st
  { st' with uuid := data.uuid, hasUnsavedChanges := false }

/-- Outcome of a `confirmSave` call, up to the point where the network
request is (or is not) issued. -/
inductive SaveOutcome where
  | tagEmptyError
  | instanceNotReady
  | emptyCanvasWarning
  | requestIssued (nodes : List FlowNode) (edges : List FlowEdge)
      (tag : String) (uuid : String)
deriving DecidableEq, Repr

/-- Whether an outcome issued the network request. -/
def SaveOutcome.issued : SaveOutcome → Bool
  | SaveOutcome.requestIssued _ _ _ _ => true
  | _ => false

/-- `confirmSave` (page.tsx 709-742) up to the `fetch`: reject an empty
tag, a missing flow instance, or an empty canvas before any network
request; otherwise issue the save request with the current nodes, edges,
the given tag, and the current uuid (or the freshly generated one when
the current uuid is empty, which is then also stored).  The returned
state is the session state after this prefix of the handler. -/
def confirmSave (st : SessionState) (instanceReady : Bool) (tag : String)
    (freshUuid : String) : SaveOutcome × SessionState :=
  if tag = "" then (SaveOutcome.tagEmptyError, st)
  else if !instanceReady then (SaveOutcome.instanceNotReady, st)
  else if st.nodes.isEmpty then (SaveOutcome.emptyCanvasWarning, st)
  else
    let uuid := if st.uuid = "" then freshUuid else st.uuid
    (SaveOutcome.requestIssued st.nodes st.edges tag uuid,
     if st.uuid = "" then { st with uuid := uuid } else st)

/-! ## Local-storage cleanup (page.tsx 152-197) -/

/-- What `cleanupLocalStorage` observes about a stored string: whether
`JSON.parse` succeeds and, if so, the value of the `savedAt` field
(`none` models a missing or falsy `savedAt`). -/
inductive LSValue where
  | corrupt (raw : String)
  | record (savedAt : Option Int) (payload : String)
deriving DecidableEq, Repr

/-- The namespace prefixed to every cache key
(`LOCAL_STORAGE_PREFIX`, page.tsx line 98). -/
def localStorageNS : String := "visual-todoflow:"

/-- The retention window (`CLEANUP_INTERVAL_MS`, page.tsx line 150). -/
def cleanupIntervalMs : Int := 7 * 24 * 60 * 60 * 1000

/-- JavaScript `key.startsWith(prefix)`: the prefix's character sequence
is an initial segment of the key's character sequence. -/
def strStartsWith (s pre : String) : Bool :=
  pre.data.isPrefixOf s.data

/-- Whether `cleanupLocalStorage` marks the entry `(key, v)` for removal
(page.tsx 158-183): only keys carrying the namespace are inspected;
among those, entries that fail to parse, lack a (truthy) `savedAt`, or
are older than the retention window are removed. -/
def cleanupRemoves (now : Int) (key : String) (v : LSValue) : Bool :=
  strStartsWith key localStorageNS &&
    (match v with
     | LSValue.corrupt _ => true
     | LSValue.record none _ => true
     | LSValue.record (some savedAt) _ => decide (now - savedAt > cleanupIntervalMs))

/-- `cleanupLocalStorage` (page.tsx 152-197) over a key-value store
modelled as an association list with distinct keys: every key marked by
`cleanupRemoves` is removed, every other entry is kept. -/
def cleanupLocalStorage (now : Int) (store : List (String × LSValue)) :
    List (String × LSValue) :=
  store.filter (fun kv => !(cleanupRemoves now kv.1 kv.2))

/-! ## Specification vocabulary

Derived notions used to state and prove properties of the embedding. -/

/-- The id sequence of a node list. -/
def nodeIds (nodes : List FlowNode) : List String := nodes.map (fun n => n.id)

/-- An edge both of whose endpoints occur in the node list (the
condition checked by the `edges.forEach` of `getOrderedTasks`). -/
def isValidEdge (nodes : List FlowNode) (e : FlowEdge) : Bool :=
  decide (e.source ∈ nodeIds nodes) && decide (e.target ∈ nodeIds nodes)

/-- The valid edges pointing at `k`. -/
def inEdges (nodes : List FlowNode) (edges : List FlowEdge) (k : String) :
    List FlowEdge :=
  edges.filter (fun e => isValidEdge nodes e && e.target == k)

/-- The in-degree `getOrderedTasks` computes for `k`: one per valid edge
targeting `k` (parallel edges and self-loops each count). -/
def indegOf (nodes : List FlowNode) (edges : List FlowEdge) (k : String) : Nat :=
  (inEdges nodes edges k).length

/-- How many valid edges into `k` have their source in `S` (the ids
already dequeued by the loop). -/
def inCount (nodes : List FlowNode) (edges : List FlowEdge) (S : List String)
    (k : String) : Nat :=
  ((inEdges nodes edges k).filter (fun e => decide (e.source ∈ S))).length

/-- The adjacency list `getOrderedTasks` builds for `u`: the targets of
the valid edges out of `u`, in edge order. -/
def targetsOf (nodes : List FlowNode) (edges : List FlowEdge) (u : String) :
    List String :=
  (edges.filter (fun e => isValidEdge nodes e && e.source == u)).map
    (fun e => e.target)

/-- `u` occurs strictly before `v` in the list `l`. -/
def appearsBefore (l : List String) (u v : String) : Prop :=
  ∃ i j : Nat, i < j ∧ l.get? i = some u ∧ l.get? j = some v

/-- Acyclicity of the graph restricted to valid edges, in its standard
finite-graph characterization: some ranking of the ids strictly
increases along every valid edge. -/
def AcyclicRanked (nodes : List FlowNode) (edges : List FlowEdge) : Prop :=
  ∃ rank : String → Nat,
    ∀ e ∈ edges, isValidEdge nodes e = true → rank e.source < rank e.target

/-! ## Lemmas: decimal rendering round-trips through `parseIntJS` -/

theorem natDigitsAux_mem (fuel : Nat) : ∀ n c, c ∈ natDigitsAux fuel n →
    ∃ d, d < 10 ∧ c = Nat.digitChar d := by
  induction fuel with
  | zero => intro n c hc; simp [natDigitsAux] at hc
  | succ fuel ih =>
    intro n c hc
    by_cases h : n = 0
    · simp [natDigitsAux, h] at hc
    · simp only [natDigitsAux, if_neg h, List.mem_append, List.mem_singleton] at hc
      rcases hc with hc | hc
      · exact ih _ _ hc
      · exact ⟨n % 10, by omega, hc⟩

theorem natDigitsAux_ne_nil (fuel n : Nat) (h1 : n ≠ 0) (h2 : n ≤ fuel) :
    natDigitsAux fuel n ≠ [] := by
  cases fuel with
  | zero => omega
  | succ fuel => simp [natDigitsAux, h1]

theorem digitChar_props : ∀ d, d < 10 →
    (Nat.digitChar d).isWhitespace = false ∧ Nat.digitChar d ≠ '-' ∧
      Nat.digitChar d ≠ '+' ∧ (d ≠ 0 → Nat.digitChar d ≠ '0') := by decide

theorem natDigitsAux_head_ne_zero (fuel : Nat) : ∀ n, n ≠ 0 → n ≤ fuel →
    ∀ c, (natDigitsAux fuel n).head? = some c → c ≠ '0' := by
  induction fuel with
  | zero => intro n h1 h2; omega
  | succ fuel ih =>
    intro n h1 h2 c hc
    rw [natDigitsAux, if_neg h1] at hc
    by_cases h10 : n / 10 = 0
    · have hz : natDigitsAux fuel (n / 10) = [] := by
        cases fuel <;> simp [natDigitsAux, h10]
      rw [hz] at hc
      simp at hc
      subst hc
      exact (digitChar_props (n % 10) (by omega)).2.2.2 (by omega)
    · obtain ⟨c₁, t, ht⟩ :=
        List.exists_cons_of_ne_nil (natDigitsAux_ne_nil fuel (n / 10) h10 (by omega))
      rw [ht] at hc
      simp only [List.cons_append, List.head?_cons, Option.some.injEq] at hc
      subst hc
      exact ih (n / 10) h10 (by omega) _ (by rw [ht]; rfl)

/-- Value of a digit run, as `parseDigitRun` accumulates it. -/
def accVal (acc : Nat) : List Char → Nat
  | [] => acc
  | c :: t => accVal (acc * 10 + (decDigit c).getD 0) t

theorem accVal_append (L₁ L₂ : List Char) : ∀ acc,
    accVal acc (L₁ ++ L₂) = accVal (accVal acc L₁) L₂ := by
  induction L₁ with
  | nil => intro acc; rfl
  | cons c t ih => intro acc; simp only [List.cons_append, accVal]; exact ih _

theorem decDigit_digitChar : ∀ d, d < 10 →
    decDigit (Nat.digitChar d) = some d := by decide

theorem accVal_natDigitsAux (fuel : Nat) : ∀ n acc, n ≤ fuel →
    accVal acc (natDigitsAux fuel n) =
      acc * 10 ^ (natDigitsAux fuel n).length + n := by
  induction fuel with
  | zero =>
    intro n acc h
    have : n = 0 := by omega
    subst this
    simp [natDigitsAux, accVal]
  | succ fuel ih =>
    intro n acc h
    by_cases h0 : n = 0
    · simp [natDigitsAux, h0, accVal]
    · rw [natDigitsAux, if_neg h0, accVal_append, ih (n / 10) acc (by omega)]
      simp only [accVal, decDigit_digitChar (n % 10) (by omega), Option.getD_some,
        List.length_append, List.length_singleton]
      rw [pow_succ]
      have hmod : 10 * (n / 10) + n % 10 = n := by omega
      set k := (natDigitsAux fuel (n / 10)).length
      calc (acc * 10 ^ k + n / 10) * 10 + n % 10
          = acc * (10 ^ k * 10) + (10 * (n / 10) + n % 10) := by ring
        _ = acc * (10 ^ k * 10) + n := by rw [hmod]

theorem parseDigitRun_digits (L : List Char) : ∀ acc seen,
    (∀ c ∈ L, (decDigit c).isSome = true) →
    parseDigitRun decDigit 10 L acc seen = (accVal acc L, seen || !L.isEmpty) := by
  induction L with
  | nil => intro acc seen _; simp [parseDigitRun, accVal]
  | cons c t ih =>
    intro acc seen h
    obtain ⟨d, hd⟩ := Option.isSome_iff_exists.mp (h c (by simp))
    rw [parseDigitRun, hd]
    show parseDigitRun decDigit 10 t (acc * 10 + d) true = _
    rw [ih _ _ (fun c' hc' => h c' (by simp [hc']))]
    simp [accVal, hd]

theorem parseIntJS_natToString (n : Nat) : parseIntJS (natToString n) = some (n : Int) := by
  by_cases h0 : n = 0
  · subst h0; decide
  · rw [natToString, if_neg h0]
    obtain ⟨c, t, hL⟩ := List.exists_cons_of_ne_nil (natDigitsAux_ne_nil n n h0 le_rfl)
    obtain ⟨d, hd10, hcd⟩ := natDigitsAux_mem n n c (by rw [hL]; simp)
    have hprops := digitChar_props d hd10
    have hc0 : c ≠ '0' :=
      natDigitsAux_head_ne_zero n n h0 le_rfl c (by rw [hL]; rfl)
    have hdigs : ∀ c' ∈ natDigitsAux n n, (decDigit c').isSome = true := by
      intro c' hc'
      obtain ⟨d', hd'10, hcd'⟩ := natDigitsAux_mem n n c' hc'
      rw [hcd', decDigit_digitChar d' hd'10]
      rfl
    have hdw : (natDigitsAux n n).dropWhile Char.isWhitespace = natDigitsAux n n := by
      rw [hL, List.dropWhile_cons, hcd, hprops.1]
      simp
    have hdata : (String.mk (natDigitsAux n n)).data = natDigitsAux n n := rfl
    have hrun := parseDigitRun_digits (natDigitsAux n n) 0 false hdigs
    have hval := accVal_natDigitsAux n n 0 le_rfl
    simp only [parseIntJS, hdata, hdw]
    rw [hL] at hrun hval ⊢
    have hne : ((c :: t).head? == some '-') = false := by
      simp only [List.head?_cons, beq_eq_false_iff_ne, ne_eq, Option.some.injEq]
      rw [hcd]; exact hprops.2.1
    have hpl : ((c :: t).head? == some '+') = false := by
      simp only [List.head?_cons, beq_eq_false_iff_ne, ne_eq, Option.some.injEq]
      rw [hcd]; exact hprops.2.2.1
    have hz : ((c :: t).head? == some '0') = false := by
      simp only [List.head?_cons, beq_eq_false_iff_ne, ne_eq, Option.some.injEq]
      exact hc0
    have hcm : c ≠ '-' := by rw [hcd]; exact hprops.2.1
    have hcp : c ≠ '+' := by rw [hcd]; exact hprops.2.2.1
    simp [hne, hpl, hz, hcm, hcp, hc0, hrun, hval]

theorem natToString_inj (a b : Nat) (h : natToString a = natToString b) : a = b := by
  have ha := parseIntJS_natToString a
  rw [h, parseIntJS_natToString b] at ha
  exact_mod_cast (Option.some_inj.mp ha).symm

/-! ## Lemmas: the maps built by `getOrderedTasks` -/

theorem mset_same {β : Type} (m : String → Option β) (k : String) (v : β) :
    mset m k v k = some v := by simp [mset]

theorem mset_ne {β : Type} (m : String → Option β) {k k' : String} (v : β)
    (h : k' ≠ k) : mset m k v k' = m k' := by simp [mset, h]

theorem foldl_nodeMap_eq_some (l : List FlowNode) :
    ∀ (m : String → Option FlowNode) (k : String) (n : FlowNode),
      l.foldl (fun m n => mset m n.id n) m k = some n →
      (n ∈ l ∧ n.id = k) ∨ m k = some n := by
  induction l with
  | nil => intro m k n h; exact Or.inr h
  | cons a t ih =>
    intro m k n h
    rcases ih _ _ _ h with h' | h'
    · exact Or.inl ⟨List.mem_cons_of_mem _ h'.1, h'.2⟩
    · have h'' : mset m a.id a k = some n := h'
      by_cases hk : k = a.id
      · subst hk
        rw [mset_same] at h''
        have : a = n := Option.some_inj.mp h''
        subst this
        exact Or.inl ⟨List.mem_cons_self _ _, rfl⟩
      · exact Or.inr (by rwa [mset_ne _ _ hk] at h'')

theorem foldl_nodeMap_isSome (l : List FlowNode) :
    ∀ (m : String → Option FlowNode) (k : String),
      (l.foldl (fun m n => mset m n.id n) m k).isSome = true ↔
        k ∈ nodeIds l ∨ (m k).isSome = true := by
  induction l with
  | nil => intro m k; simp [nodeIds]
  | cons a t ih =>
    intro m k
    rw [List.foldl_cons, ih]
    by_cases hk : k = a.id
    · subst hk; simp [nodeIds, mset_same]
    · rw [mset_ne _ _ hk]; simp [nodeIds, hk]

theorem foldl_nodeMap_not_mem (l : List FlowNode) :
    ∀ (m : String → Option FlowNode) (k : String), k ∉ nodeIds l →
      l.foldl (fun m n => mset m n.id n) m k = m k := by
  induction l with
  | nil => intro m k _; rfl
  | cons a t ih =>
    intro m k hk
    simp only [nodeIds, List.map_cons, List.mem_cons, not_or] at hk
    rw [List.foldl_cons, ih _ _ (by simpa [nodeIds] using hk.2), mset_ne _ _ hk.1]

theorem foldl_nodeMap_self (l : List FlowNode) :
    ∀ (m : String → Option FlowNode), (nodeIds l).Nodup →
      ∀ n ∈ l, l.foldl (fun m n => mset m n.id n) m n.id = some n := by
  induction l with
  | nil => intro m _ n hn; simp at hn
  | cons a t ih =>
    intro m hnd n hmem
    simp only [nodeIds, List.map_cons] at hnd
    have hna : a.id ∉ List.map (fun n => n.id) t := (List.nodup_cons.mp hnd).1
    have hnd' : (nodeIds t).Nodup := (List.nodup_cons.mp hnd).2
    rw [List.foldl_cons]
    rcases List.mem_cons.mp hmem with rfl | hmem'
    · rw [foldl_nodeMap_not_mem t _ _ hna]
      exact mset_same _ _ _
    · exact ih _ hnd' n hmem'

theorem buildNodeMap_eq_some {nodes : List FlowNode} {k : String} {n : FlowNode}
    (h : buildNodeMap nodes k = some n) : n ∈ nodes ∧ n.id = k := by
  rcases foldl_nodeMap_eq_some nodes _ _ _ h with h' | h'
  · exact h'
  · simp at h'

theorem buildNodeMap_isSome (nodes : List FlowNode) (k : String) :
    (buildNodeMap nodes k).isSome = true ↔ k ∈ nodeIds nodes := by
  rw [buildNodeMap, foldl_nodeMap_isSome]; simp

theorem buildNodeMap_self (nodes : List FlowNode) (hn : (nodeIds nodes).Nodup) :
    ∀ n ∈ nodes, buildNodeMap nodes n.id = some n :=
  foldl_nodeMap_self nodes _ hn

theorem foldl_initMaps (l : List FlowNode) :
    ∀ (p : (String → Option Int) × (String → Option (List String))) (k : String),
      ((l.foldl (fun p n => (mset p.1 n.id 0, mset p.2 n.id [])) p).1 k =
        if k ∈ nodeIds l then some 0 else p.1 k) ∧
      ((l.foldl (fun p n => (mset p.1 n.id 0, mset p.2 n.id [])) p).2 k =
        if k ∈ nodeIds l then some [] else p.2 k) := by
  induction l with
  | nil => intro p k; simp [nodeIds]
  | cons a t ih =>
    intro p k
    rw [List.foldl_cons]
    obtain ⟨ih1, ih2⟩ := ih (mset p.1 a.id 0, mset p.2 a.id []) k
    constructor
    · rw [ih1]
      by_cases hk1 : k ∈ nodeIds t
      · have hk1' : ∃ x ∈ t, x.id = k := by simpa [nodeIds] using hk1
        simp [nodeIds, hk1']
      · have hk1' : ¬ ∃ x ∈ t, x.id = k := by simpa [nodeIds] using hk1
        by_cases hk2 : k = a.id
        · subst hk2; simp [nodeIds, hk1', mset_same]
        · simp only [mset_ne _ _ hk2]
          simp [nodeIds, hk1', hk2]
    · rw [ih2]
      by_cases hk1 : k ∈ nodeIds t
      · have hk1' : ∃ x ∈ t, x.id = k := by simpa [nodeIds] using hk1
        simp [nodeIds, hk1']
      · have hk1' : ¬ ∃ x ∈ t, x.id = k := by simpa [nodeIds] using hk1
        by_cases hk2 : k = a.id
        · subst hk2; simp [nodeIds, hk1', mset_same]
        · simp only [mset_ne _ _ hk2]
          simp [nodeIds, hk1', hk2]

theorem initMaps_fst (nodes : List FlowNode) (k : String) :
    (initMaps nodes).1 k = if k ∈ nodeIds nodes then some 0 else none :=
  (foldl_initMaps nodes _ k).1

theorem initMaps_snd (nodes : List FlowNode) (k : String) :
    (initMaps nodes).2 k = if k ∈ nodeIds nodes then some [] else none :=
  (foldl_initMaps nodes _ k).2

/-! ## Lemmas: the edge pass builds `targetsOf` and `indegOf` -/

/-- The adjacency component of `processEdge`. -/
def processEdgeAdj (nodeMap : String → Option FlowNode)
    (adj : String → Option (List String)) (e : FlowEdge) :
    String → Option (List String) :=
  if (nodeMap e.source).isSome && (nodeMap e.target).isSome then
    match adj e.source with
    | some l => mset adj e.source (l ++ [e.target])
    | none => adj
  else adj

/-- The in-degree component of `processEdge`. -/
def processEdgeDeg (nodeMap : String → Option FlowNode)
    (deg : String → Option Int) (e : FlowEdge) : String → Option Int :=
  if (nodeMap e.source).isSome && (nodeMap e.target).isSome then
    mset deg e.target ((deg e.target).getD 0 + 1)
  else deg

theorem processEdge_eq (nodeMap : String → Option FlowNode)
    (p : (String → Option (List String)) × (String → Option Int)) (e : FlowEdge) :
    processEdge nodeMap p e =
      (processEdgeAdj nodeMap p.1 e, processEdgeDeg nodeMap p.2 e) := by
  rw [processEdge, processEdgeAdj, processEdgeDeg]
  split
  · rfl
  · rfl

theorem foldl_processEdge (nodeMap : String → Option FlowNode)
    (es : List FlowEdge) :
    ∀ p, es.foldl (processEdge nodeMap) p =
      (es.foldl (processEdgeAdj nodeMap) p.1, es.foldl (processEdgeDeg nodeMap) p.2) := by
  induction es with
  | nil => intro p; rfl
  | cons e es ih => intro p; rw [List.foldl_cons, processEdge_eq, ih]; rfl

theorem processEdge_cond (nodes : List FlowNode) (nodeMap : String → Option FlowNode)
    (hbm : ∀ k, (nodeMap k).isSome = true ↔ k ∈ nodeIds nodes) (e : FlowEdge) :
    ((nodeMap e.source).isSome && (nodeMap e.target).isSome) = isValidEdge nodes e := by
  have h1 := hbm e.source
  have h2 := hbm e.target
  rw [isValidEdge]
  cases hs : (nodeMap e.source).isSome <;> cases ht : (nodeMap e.target).isSome <;>
    simp_all

theorem targetsOf_cons_valid (nodes : List FlowNode) (e : FlowEdge)
    (es : List FlowEdge) (hv : isValidEdge nodes e = true) (k : String) :
    targetsOf nodes (e :: es) k =
      (if e.source = k then [e.target] else []) ++ targetsOf nodes es k := by
  rw [targetsOf, targetsOf, List.filter_cons]
  by_cases hk : e.source = k
  · simp [hv, hk]
  · simp [hv, hk]

theorem targetsOf_cons_invalid (nodes : List FlowNode) (e : FlowEdge)
    (es : List FlowEdge) (hv : isValidEdge nodes e = false) (k : String) :
    targetsOf nodes (e :: es) k = targetsOf nodes es k := by
  simp [targetsOf, List.filter_cons, hv]

theorem indegOf_cons_valid (nodes : List FlowNode) (e : FlowEdge)
    (es : List FlowEdge) (hv : isValidEdge nodes e = true) (k : String) :
    indegOf nodes (e :: es) k =
      (if e.target = k then 1 else 0) + indegOf nodes es k := by
  rw [indegOf, indegOf, inEdges, inEdges, List.filter_cons]
  by_cases hk : e.target = k
  · simp [hv, hk]
    omega
  · simp [hv, hk]

theorem indegOf_cons_invalid (nodes : List FlowNode) (e : FlowEdge)
    (es : List FlowEdge) (hv : isValidEdge nodes e = false) (k : String) :
    indegOf nodes (e :: es) k = indegOf nodes es k := by
  simp [indegOf, inEdges, List.filter_cons, hv]

theorem processEdgesAdj_spec (nodes : List FlowNode)
    (nodeMap : String → Option FlowNode)
    (hbm : ∀ k, (nodeMap k).isSome = true ↔ k ∈ nodeIds nodes) :
    ∀ (es : List FlowEdge) (adj : String → Option (List String))
      (A : String → List String),
      (∀ k, adj k = if k ∈ nodeIds nodes then some (A k) else none) →
      ∀ k, es.foldl (processEdgeAdj nodeMap) adj k =
        if k ∈ nodeIds nodes then some (A k ++ targetsOf nodes es k) else none := by
  intro es
  induction es with
  | nil =>
    intro adj A hA k
    rw [List.foldl_nil, hA k]
    simp [targetsOf]
  | cons e es ih =>
    intro adj A hA k
    rw [List.foldl_cons]
    by_cases hv : isValidEdge nodes e = true
    · have hsrc : e.source ∈ nodeIds nodes := by
        rw [isValidEdge] at hv; simp at hv; exact hv.1
      have hstep : processEdgeAdj nodeMap adj e =
          mset adj e.source (A e.source ++ [e.target]) := by
        rw [processEdgeAdj, processEdge_cond nodes nodeMap hbm e, hv, hA e.source,
          if_pos hsrc]
        rfl
      rw [hstep]
      rw [ih (mset adj e.source (A e.source ++ [e.target]))
            (fun k' => if k' = e.source then A k' ++ [e.target] else A k')
            (fun k' => by
              by_cases hks : k' = e.source
              · subst hks; simp [mset_same, hsrc]
              · rw [mset_ne _ _ hks, hA k']; simp [hks])
            k]
      by_cases hk : k ∈ nodeIds nodes
      · rw [if_pos hk, if_pos hk, targetsOf_cons_valid nodes e es hv k]
        by_cases hks : k = e.source
        · subst hks
          simp
        · rw [if_neg hks, if_neg (fun h => hks h.symm)]
          simp
      · rw [if_neg hk, if_neg hk]
    · have hv' : isValidEdge nodes e = false := eq_false_of_ne_true hv
      have hstep : processEdgeAdj nodeMap adj e = adj := by
        rw [processEdgeAdj, processEdge_cond nodes nodeMap hbm e, hv']
        simp
      rw [hstep, ih adj A hA k, targetsOf_cons_invalid nodes e es hv' k]

theorem processEdgesDeg_spec (nodes : List FlowNode)
    (nodeMap : String → Option FlowNode)
    (hbm : ∀ k, (nodeMap k).isSome = true ↔ k ∈ nodeIds nodes) :
    ∀ (es : List FlowEdge) (deg : String → Option Int) (D : String → Int),
      (∀ k, deg k = if k ∈ nodeIds nodes then some (D k) else none) →
      ∀ k, es.foldl (processEdgeDeg nodeMap) deg k =
        if k ∈ nodeIds nodes then some (D k + (indegOf nodes es k : Int)) else none := by
  intro es
  induction es with
  | nil =>
    intro deg D hD k
    rw [List.foldl_nil, hD k]
    simp [indegOf, inEdges]
  | cons e es ih =>
    intro deg D hD k
    rw [List.foldl_cons]
    by_cases hv : isValidEdge nodes e = true
    · have htgt : e.target ∈ nodeIds nodes := by
        rw [isValidEdge] at hv; simp at hv; exact hv.2
      have hstep : processEdgeDeg nodeMap deg e =
          mset deg e.target (D e.target + 1) := by
        rw [processEdgeDeg, processEdge_cond nodes nodeMap hbm e, hv, hD e.target,
          if_pos htgt]
        rfl
      rw [hstep]
      rw [ih (mset deg e.target (D e.target + 1))
            (fun k' => if k' = e.target then D k' + 1 else D k')
            (fun k' => by
              by_cases hks : k' = e.target
              · subst hks; simp [mset_same, htgt]
              · rw [mset_ne _ _ hks, hD k']; simp [hks])
            k]
      by_cases hk : k ∈ nodeIds nodes
      · rw [if_pos hk, if_pos hk, indegOf_cons_valid nodes e es hv k]
        by_cases hks : k = e.target
        · subst hks
          rw [if_pos rfl, if_pos rfl]
          congr 1
          push_cast
          ring
        · rw [if_neg hks, if_neg (fun h => hks h.symm)]
          congr 1
          push_cast
          ring
      · rw [if_neg hk, if_neg hk]
    · have hv' : isValidEdge nodes e = false := eq_false_of_ne_true hv
      have hstep : processEdgeDeg nodeMap deg e = deg := by
        rw [processEdgeDeg, processEdge_cond nodes nodeMap hbm e, hv']
        simp
      rw [hstep, ih deg D hD k, indegOf_cons_invalid nodes e es hv' k]

theorem foldl_initialQueue (deg : String → Option Int) (l : List FlowNode) : ∀ q,
    l.foldl (fun q n => if deg n.id = some 0 then q ++ [n.id] else q) q =
      q ++ (l.filter (fun n => decide (deg n.id = some 0))).map (fun n => n.id) := by
  induction l with
  | nil => intro q; simp
  | cons a t ih =>
    intro q
    rw [List.foldl_cons]
    by_cases h : deg a.id = some 0
    · rw [if_pos h, ih, List.filter_cons_of_pos (by simpa using h)]
      simp
    · rw [if_neg h, ih, List.filter_cons_of_neg (by simpa using h)]

theorem initialQueue_eq (nodes : List FlowNode) (deg : String → Option Int) :
    initialQueue nodes deg =
      (nodes.filter (fun n => decide (deg n.id = some 0))).map (fun n => n.id) := by
  rw [initialQueue, foldl_initialQueue]
  rfl

/-! ## Lemmas: the neighbour pass decrements counts and collects the
ids that reach zero -/

/-- The in-degree component of `stepNeighbor`. -/
def stepNeighborDeg (deg : String → Option Int) (v : String) :
    String → Option Int :=
  mset deg v ((deg v).getD 0 - 1)

/-- The ids enqueued while processing a neighbour list. -/
def pushedOf (deg : String → Option Int) : List String → List String
  | [] => []
  | v :: t =>
    (if (deg v).getD 0 - 1 = 0 then [v] else []) ++
      pushedOf (stepNeighborDeg deg v) t

theorem foldl_stepNeighbor_eq (L : List String) :
    ∀ (deg : String → Option Int) (acc : List String),
      L.foldl stepNeighbor (deg, acc) =
        (L.foldl stepNeighborDeg deg, acc ++ pushedOf deg L) := by
  induction L with
  | nil => intro deg acc; simp [pushedOf]
  | cons v t ih =>
    intro deg acc
    rw [List.foldl_cons, List.foldl_cons]
    have hstep : stepNeighbor (deg, acc) v =
        (stepNeighborDeg deg v,
          acc ++ (if (deg v).getD 0 - 1 = 0 then [v] else [])) := by
      rw [stepNeighbor, stepNeighborDeg]
      by_cases hd : (deg v).getD 0 - 1 = 0
      · simp [hd]
      · simp [hd]
    rw [hstep, ih]
    simp [pushedOf]

theorem processNeighbors_eq (deg : String → Option Int) (L : List String) :
    processNeighbors deg L = (L.foldl stepNeighborDeg deg, pushedOf deg L) := by
  rw [processNeighbors, foldl_stepNeighbor_eq]
  rfl

theorem foldl_stepNeighborDeg (L : List String) :
    ∀ (deg : String → Option Int) (k : String),
      L.foldl stepNeighborDeg deg k =
        if k ∈ L then some ((deg k).getD 0 - (L.count k : Int)) else deg k := by
  induction L with
  | nil => intro deg k; simp
  | cons v t ih =>
    intro deg k
    rw [List.foldl_cons, ih]
    by_cases hkt : k ∈ t
    · rw [if_pos hkt, if_pos (List.mem_cons_of_mem _ hkt)]
      by_cases hkv : k = v
      · subst hkv
        rw [stepNeighborDeg, mset_same]
        rw [List.count_cons_self]
        simp only [Option.getD_some]
        congr 1
        push_cast
        ring
      · rw [stepNeighborDeg, mset_ne _ _ hkv, List.count_cons_of_ne hkv]
    · rw [if_neg hkt]
      by_cases hkv : k = v
      · subst hkv
        rw [if_pos (List.mem_cons_self _ _), stepNeighborDeg, mset_same]
        have hz : t.count k = 0 := List.count_eq_zero.mpr hkt
        rw [List.count_cons_self, hz]
        simp
      · rw [if_neg (fun h => (List.mem_cons.mp h).elim hkv hkt),
          stepNeighborDeg, mset_ne _ _ hkv]

theorem pushedOf_mem (L : List String) :
    ∀ (deg : String → Option Int) (x : String),
      x ∈ pushedOf deg L ↔
        x ∈ L ∧ 1 ≤ (deg x).getD 0 ∧ (deg x).getD 0 ≤ (L.count x : Int) := by
  induction L with
  | nil => intro deg x; simp [pushedOf]
  | cons v t ih =>
    intro deg x
    rw [pushedOf, List.mem_append, ih (stepNeighborDeg deg v) x]
    by_cases hxv : x = v
    · subst hxv
      rw [stepNeighborDeg, mset_same]
      simp only [Option.getD_some]
      have hcnt : ((x :: t).count x : Int) = (t.count x : Int) + 1 := by
        rw [List.count_cons_self]; push_cast; ring
      have hcpos : 0 < t.count x ↔ x ∈ t := List.count_pos_iff
      constructor
      · rintro (hin | ⟨hxt, h1, h2⟩)
        · by_cases hd : (deg x).getD 0 - 1 = 0
          · refine ⟨List.mem_cons_self _ _, by omega, ?_⟩
            rw [hcnt]
            have : (0 : Int) ≤ (t.count x : Int) := Int.natCast_nonneg _
            omega
          · simp [hd] at hin
        · refine ⟨List.mem_cons_self _ _, by omega, ?_⟩
          rw [hcnt]
          omega
      · rintro ⟨-, h1, h2⟩
        rw [hcnt] at h2
        by_cases hd : (deg x).getD 0 - 1 = 0
        · left; simp [hd]
        · right
          have hc1 : 0 < t.count x := by omega
          exact ⟨hcpos.mp hc1, by omega, by omega⟩
    · rw [stepNeighborDeg, mset_ne _ _ hxv, List.count_cons_of_ne hxv]
      by_cases hd : (deg v).getD 0 - 1 = 0
      · simp [hd, hxv, List.mem_cons]
      · simp [hd, hxv, List.mem_cons]

theorem pushedOf_nodup (L : List String) :
    ∀ deg : String → Option Int, (pushedOf deg L).Nodup := by
  induction L with
  | nil => intro deg; simp [pushedOf]
  | cons v t ih =>
    intro deg
    rw [pushedOf]
    by_cases hd : (deg v).getD 0 - 1 = 0
    · rw [if_pos hd]
      refine List.Nodup.append (by simp) (ih _) ?_
      intro x hx1 hx2
      simp at hx1
      subst hx1
      have hmem := (pushedOf_mem t (stepNeighborDeg deg x) x).mp hx2
      rw [stepNeighborDeg, mset_same] at hmem
      simp only [Option.getD_some] at hmem
      omega
    · rw [if_neg hd]
      simpa using ih _

/-! ## Lemmas: in-edge counting -/

/-- The number of valid edges from `u` to `k`. -/
def edgeCnt (nodes : List FlowNode) (edges : List FlowEdge) (u k : String) : Nat :=
  ((inEdges nodes edges k).filter (fun e => e.source == u)).length

theorem inEdges_mem (nodes : List FlowNode) (edges : List FlowEdge)
    (k : String) (e : FlowEdge) :
    e ∈ inEdges nodes edges k ↔
      e ∈ edges ∧ isValidEdge nodes e = true ∧ e.target = k := by
  rw [inEdges, List.mem_filter]
  simp [and_assoc]

theorem inCount_le_indeg (nodes : List FlowNode) (edges : List FlowEdge)
    (S : List String) (k : String) :
    inCount nodes edges S k ≤ indegOf nodes edges k :=
  List.length_filter_le _ _

theorem inCount_eq_indeg_iff (nodes : List FlowNode) (edges : List FlowEdge)
    (S : List String) (k : String) :
    inCount nodes edges S k = indegOf nodes edges k ↔
      ∀ e ∈ inEdges nodes edges k, e.source ∈ S := by
  rw [inCount, indegOf, List.filter_length_eq_length]
  simp

theorem length_filter_mem_append (u : String) (S : List String) (hu : u ∉ S)
    (l : List FlowEdge) :
    (l.filter (fun e => decide (e.source ∈ S ++ [u]))).length =
      (l.filter (fun e => decide (e.source ∈ S))).length +
      (l.filter (fun e => e.source == u)).length := by
  induction l with
  | nil => rfl
  | cons e t ih =>
    rw [List.filter_cons, List.filter_cons, List.filter_cons]
    by_cases h1 : e.source ∈ S
    · have h2 : e.source ≠ u := fun h => hu (h ▸ h1)
      rw [if_pos (show (decide (e.source ∈ S ++ [u])) = true by simp [h1]),
        if_pos (show (decide (e.source ∈ S)) = true by simp [h1]),
        if_neg (show ¬ ((e.source == u) = true) by simp [h2])]
      simp only [List.length_cons]
      omega
    · by_cases h2 : e.source = u
      · rw [if_pos (show (decide (e.source ∈ S ++ [u])) = true by simp [h2]),
          if_neg (show ¬ ((decide (e.source ∈ S)) = true) by simp [h1]),
          if_pos (show ((e.source == u) = true) by simp [h2])]
        simp only [List.length_cons]
        omega
      · rw [if_neg (show ¬ ((decide (e.source ∈ S ++ [u])) = true) by simp [h1, h2]),
          if_neg (show ¬ ((decide (e.source ∈ S)) = true) by simp [h1]),
          if_neg (show ¬ ((e.source == u) = true) by simp [h2])]
        omega

theorem inCount_append (nodes : List FlowNode) (edges : List FlowEdge)
    (S : List String) (u : String) (hu : u ∉ S) (k : String) :
    inCount nodes edges (S ++ [u]) k =
      inCount nodes edges S k + edgeCnt nodes edges u k := by
  rw [inCount, inCount, edgeCnt, length_filter_mem_append u S hu]

theorem targetsOf_count (nodes : List FlowNode) (edges : List FlowEdge)
    (u k : String) :
    (targetsOf nodes edges u).count k = edgeCnt nodes edges u k := by
  rw [targetsOf, edgeCnt, inEdges, List.count_eq_countP, List.countP_map,
    List.filter_filter, ← List.countP_eq_length_filter, List.countP_filter]
  congr 1
  funext e
  simp only [Function.comp_apply]
  cases isValidEdge nodes e <;> cases e.target == k <;> cases e.source == u <;> rfl

theorem targetsOf_sub (nodes : List FlowNode) (edges : List FlowEdge)
    (u : String) : ∀ v ∈ targetsOf nodes edges u, v ∈ nodeIds nodes := by
  intro v hv
  rw [targetsOf] at hv
  obtain ⟨e, he, rfl⟩ := List.mem_map.mp hv
  have := List.of_mem_filter he
  simp only [Bool.and_eq_true] at this
  rw [isValidEdge] at this
  simp only [Bool.and_eq_true, decide_eq_true_eq] at this
  exact this.1.2

theorem edgeCnt_pos_mem_targets (nodes : List FlowNode) (edges : List FlowEdge)
    (u k : String) (h : 0 < edgeCnt nodes edges u k) :
    k ∈ targetsOf nodes edges u := by
  rw [← targetsOf_count nodes edges u k] at h
  exact List.count_pos_iff.mp h

/-! ## Lemmas: `appearsBefore` -/

theorem appearsBefore_append (l l' : List String) (u v : String)
    (h : appearsBefore l u v) : appearsBefore (l ++ l') u v := by
  obtain ⟨i, j, hij, hi, hj⟩ := h
  obtain ⟨hjl, -⟩ := List.get?_eq_some.mp hj
  refine ⟨i, j, hij, ?_, ?_⟩
  · rw [List.get?_append (Nat.lt_trans hij hjl)]; exact hi
  · rw [List.get?_append hjl]; exact hj

theorem appearsBefore_concat (l : List String) (u v : String)
    (hu : u ∈ l) : appearsBefore (l ++ [v]) u v := by
  obtain ⟨i, hi⟩ := List.mem_iff_get?.mp hu
  obtain ⟨hil, -⟩ := List.get?_eq_some.mp hi
  refine ⟨i, l.length, hil, ?_, ?_⟩
  · rw [List.get?_append hil]; exact hi
  · exact List.get?_concat_length l v

/-! ## The loop invariant of Kahn's algorithm -/

theorem nodup_subset_length_le {l l' : List String} (hn : l.Nodup)
    (hs : l ⊆ l') : l.length ≤ l'.length :=
  (hn.subperm hs).length_le

theorem kahnLoop_nil (nodeMap : String → Option FlowNode)
    (adjM : String → Option (List String)) (fuel : Nat)
    (D : String → Option Int) (S : List FlowNode) :
    kahnLoop nodeMap adjM fuel [] D S = S := by
  cases fuel <;> rfl

/-- Invariant of the `while` loop of `getOrderedTasks`, for a graph with
duplicate-free node ids: `q` is the pending queue, `D` the current
in-degree map, `S` the sorted list built so far. -/
structure LoopInv (nodes : List FlowNode) (edges : List FlowEdge)
    (q : List String) (D : String → Option Int) (S : List FlowNode) : Prop where
  q_sub : ∀ u ∈ q, u ∈ nodeIds nodes
  S_sub : ∀ n ∈ S, n ∈ nodes
  S_nodup : (nodeIds S).Nodup
  q_nodup : q.Nodup
  disj : ∀ u ∈ q, u ∉ nodeIds S
  deg_in : ∀ k ∈ nodeIds nodes,
    D k = some ((indegOf nodes edges k : Int) -
      (inCount nodes edges (nodeIds S) k : Int))
  full_q : ∀ u ∈ q,
    inCount nodes edges (nodeIds S) u = indegOf nodes edges u
  full_S : ∀ k ∈ nodeIds S,
    inCount nodes edges (nodeIds S) k = indegOf nodes edges k
  missing : ∀ k ∈ nodeIds nodes, k ∉ q → k ∉ nodeIds S →
    inCount nodes edges (nodeIds S) k < indegOf nodes edges k
  sorted : ∀ e ∈ edges, isValidEdge nodes e = true → e.target ∈ nodeIds S →
    appearsBefore (nodeIds S) e.source e.target

theorem loopInv_final (nodes : List FlowNode) (edges : List FlowEdge)
    (D : String → Option Int) (S : List FlowNode)
    (hinv : LoopInv nodes edges [] D S) :
    (∀ n ∈ S, n ∈ nodes) ∧ (nodeIds S).Nodup ∧
    (∀ e ∈ edges, isValidEdge nodes e = true → e.target ∈ nodeIds S →
      appearsBefore (nodeIds S) e.source e.target) ∧
    (∀ k ∈ nodeIds nodes, k ∉ nodeIds S →
      ∃ e ∈ edges, isValidEdge nodes e = true ∧ e.target = k ∧
        e.source ∉ nodeIds S) := by
  refine ⟨hinv.S_sub, hinv.S_nodup, hinv.sorted, ?_⟩
  intro k hk hkS
  have hlt := hinv.missing k hk (by simp) hkS
  have hne : inCount nodes edges (nodeIds S) k ≠ indegOf nodes edges k :=
    Nat.ne_of_lt hlt
  rw [Ne, inCount_eq_indeg_iff] at hne
  push_neg at hne
  obtain ⟨e, he, hsrc⟩ := hne
  rw [inEdges_mem] at he
  exact ⟨e, he.1, he.2.1, he.2.2, hsrc⟩

theorem loopInv_length_lt (nodes : List FlowNode) (edges : List FlowEdge)
    (u : String) (rest : List String) (D : String → Option Int)
    (S : List FlowNode) (hinv : LoopInv nodes edges (u :: rest) D S) :
    S.length < nodes.length := by
  have hsub : nodeIds S ++ [u] ⊆ nodeIds nodes := by
    intro x hx
    rcases List.mem_append.mp hx with hx | hx
    · obtain ⟨n, hn, rfl⟩ := List.mem_map.mp hx
      exact List.mem_map_of_mem _ (hinv.S_sub n hn)
    · rw [List.mem_singleton] at hx
      subst hx
      exact hinv.q_sub x (List.mem_cons_self _ _)
  have hnd : (nodeIds S ++ [u]).Nodup := by
    refine List.Nodup.append hinv.S_nodup (by simp) ?_
    intro x hx hx2
    rw [List.mem_singleton] at hx2
    subst hx2
    exact hinv.disj x (List.mem_cons_self _ _) hx
  have hlen := nodup_subset_length_le hnd hsub
  simp only [List.length_append, List.length_singleton, nodeIds,
    List.length_map] at hlen
  omega

theorem loopInv_step (nodes : List FlowNode) (edges : List FlowEdge)
    (u : String) (rest : List String) (D : String → Option Int)
    (S : List FlowNode) (n_u : FlowNode)
    (hinv : LoopInv nodes edges (u :: rest) D S)
    (hn_u_mem : n_u ∈ nodes) (hn_u_id : n_u.id = u) :
    LoopInv nodes edges
      (rest ++ pushedOf D (targetsOf nodes edges u))
      ((targetsOf nodes edges u).foldl stepNeighborDeg D)
      (S ++ [n_u]) := by
  have hu_ids : u ∈ nodeIds nodes := hinv.q_sub u (List.mem_cons_self _ _)
  have hu_not_S : u ∉ nodeIds S := hinv.disj u (List.mem_cons_self _ _)
  have hu_not_rest : u ∉ rest := (List.nodup_cons.mp hinv.q_nodup).1
  have hrest_nodup : rest.Nodup := (List.nodup_cons.mp hinv.q_nodup).2
  have hSids' : nodeIds (S ++ [n_u]) = nodeIds S ++ [u] := by
    simp [nodeIds, hn_u_id]
  have hfull_u : inCount nodes edges (nodeIds S) u = indegOf nodes edges u :=
    hinv.full_q u (List.mem_cons_self _ _)
  have hcnt : ∀ k, (targetsOf nodes edges u).count k = edgeCnt nodes edges u k :=
    targetsOf_count nodes edges u
  have hIC : ∀ k, inCount nodes edges (nodeIds S ++ [u]) k =
      inCount nodes edges (nodeIds S) k + edgeCnt nodes edges u k :=
    fun k => inCount_append nodes edges (nodeIds S) u hu_not_S k
  have hD'eq : ∀ k, (targetsOf nodes edges u).foldl stepNeighborDeg D k =
      if k ∈ targetsOf nodes edges u
      then some ((D k).getD 0 - ((targetsOf nodes edges u).count k : Int))
      else D k :=
    fun k => foldl_stepNeighborDeg (targetsOf nodes edges u) D k
  have hDk : ∀ k ∈ nodeIds nodes, (D k).getD 0 =
      (indegOf nodes edges k : Int) - (inCount nodes edges (nodeIds S) k : Int) := by
    intro k hk
    rw [hinv.deg_in k hk]
    rfl
  have hD'in : ∀ k ∈ nodeIds nodes,
      (targetsOf nodes edges u).foldl stepNeighborDeg D k =
        some ((indegOf nodes edges k : Int) -
          (inCount nodes edges (nodeIds S ++ [u]) k : Int)) := by
    intro k hk
    rw [hD'eq k]
    by_cases hka : k ∈ targetsOf nodes edges u
    · rw [if_pos hka, hDk k hk, hcnt k, hIC k]
      congr 1
      push_cast
      ring
    · rw [if_neg hka, hinv.deg_in k hk, hIC k]
      have hz : edgeCnt nodes edges u k = 0 := by
        rw [← hcnt k]
        exact List.count_eq_zero.mpr hka
      rw [hz]
      simp
  have hpushed_mem : ∀ x, x ∈ pushedOf D (targetsOf nodes edges u) ↔
      x ∈ targetsOf nodes edges u ∧ 1 ≤ (D x).getD 0 ∧
        (D x).getD 0 ≤ ((targetsOf nodes edges u).count x : Int) :=
    fun x => pushedOf_mem (targetsOf nodes edges u) D x
  have hpushed_ids : ∀ x ∈ pushedOf D (targetsOf nodes edges u),
      x ∈ nodeIds nodes := by
    intro x hx
    exact targetsOf_sub nodes edges u x ((hpushed_mem x).mp hx).1
  have hpushed_newS : ∀ x ∈ pushedOf D (targetsOf nodes edges u),
      x ∉ nodeIds S ∧ x ≠ u ∧ x ∉ rest := by
    intro x hx
    obtain ⟨hxa, h1, h2⟩ := (hpushed_mem x).mp hx
    have hxids := targetsOf_sub nodes edges u x hxa
    have hd := hDk x hxids
    refine ⟨?_, ?_, ?_⟩
    · intro hxS
      have hfx := hinv.full_S x hxS
      rw [hd, hfx] at h1
      omega
    · intro hxu
      subst hxu
      rw [hd, hfull_u] at h1
      omega
    · intro hxr
      have hfx := hinv.full_q x (List.mem_cons_of_mem _ hxr)
      rw [hd, hfx] at h1
      omega
  have hpushed_full : ∀ x ∈ pushedOf D (targetsOf nodes edges u),
      inCount nodes edges (nodeIds S ++ [u]) x = indegOf nodes edges x := by
    intro x hx
    obtain ⟨hxa, h1, h2⟩ := (hpushed_mem x).mp hx
    have hxids := targetsOf_sub nodes edges u x hxa
    have hd := hDk x hxids
    rw [hd, hcnt x] at h2
    have hle := inCount_le_indeg nodes edges (nodeIds S ++ [u]) x
    rw [hIC x] at hle ⊢
    omega
  refine ⟨?_, ?_, ?_, ?_, ?_, ?_, ?_, ?_, ?_, ?_⟩
  · -- q_sub
    intro x hx
    rcases List.mem_append.mp hx with hx | hx
    · exact hinv.q_sub x (List.mem_cons_of_mem _ hx)
    · exact hpushed_ids x hx
  · -- S_sub
    intro n hn
    rcases List.mem_append.mp hn with hn | hn
    · exact hinv.S_sub n hn
    · rw [List.mem_singleton] at hn
      subst hn
      exact hn_u_mem
  · -- S_nodup
    rw [hSids']
    refine List.Nodup.append hinv.S_nodup (by simp) ?_
    intro x hx hx2
    rw [List.mem_singleton] at hx2
    subst hx2
    exact hu_not_S hx
  · -- q_nodup
    refine List.Nodup.append hrest_nodup (pushedOf_nodup _ _) ?_
    intro x hx hx2
    exact (hpushed_newS x hx2).2.2 hx
  · -- disj
    intro x hx
    rw [hSids']
    rcases List.mem_append.mp hx with hx | hx
    · intro hmem
      rcases List.mem_append.mp hmem with hmem | hmem
      · exact hinv.disj x (List.mem_cons_of_mem _ hx) hmem
      · rw [List.mem_singleton] at hmem
        exact hu_not_rest (hmem ▸ hx)
    · intro hmem
      rcases List.mem_append.mp hmem with hmem | hmem
      · exact (hpushed_newS x hx).1 hmem
      · rw [List.mem_singleton] at hmem
        exact (hpushed_newS x hx).2.1 hmem
  · -- deg_in
    intro k hk
    rw [hSids']
    exact hD'in k hk
  · -- full_q
    intro x hx
    rw [hSids']
    rcases List.mem_append.mp hx with hx | hx
    · have hfx := hinv.full_q x (List.mem_cons_of_mem _ hx)
      have hle := inCount_le_indeg nodes edges (nodeIds S ++ [u]) x
      rw [hIC x] at hle ⊢
      omega
    · exact hpushed_full x hx
  · -- full_S
    intro k hk
    rw [hSids'] at hk ⊢
    rcases List.mem_append.mp hk with hk | hk
    · have hfx := hinv.full_S k hk
      have hle := inCount_le_indeg nodes edges (nodeIds S ++ [u]) k
      rw [hIC k] at hle ⊢
      omega
    · rw [List.mem_singleton] at hk
      rw [hk]
      have hle := inCount_le_indeg nodes edges (nodeIds S ++ [u]) u
      rw [hIC u] at hle ⊢
      omega
  · -- missing
    intro k hk hkq hkS
    rw [hSids'] at hkS ⊢
    have hkrest : k ∉ rest := fun h => hkq (List.mem_append.mpr (Or.inl h))
    have hkpushed : k ∉ pushedOf D (targetsOf nodes edges u) :=
      fun h => hkq (List.mem_append.mpr (Or.inr h))
    have hkS0 : k ∉ nodeIds S := fun h => hkS (List.mem_append.mpr (Or.inl h))
    have hku : k ≠ u := fun h => hkS (List.mem_append.mpr (Or.inr (by simp [h])))
    have hmiss := hinv.missing k hk
      (fun h => (List.mem_cons.mp h).elim hku hkrest) hkS0
    have hle := inCount_le_indeg nodes edges (nodeIds S ++ [u]) k
    rw [hIC k] at hle ⊢
    by_cases heq : inCount nodes edges (nodeIds S) k + edgeCnt nodes edges u k =
        indegOf nodes edges k
    · exfalso
      have hcpos : 0 < edgeCnt nodes edges u k := by omega
      have hka : k ∈ targetsOf nodes edges u :=
        edgeCnt_pos_mem_targets nodes edges u k hcpos
      have hd := hDk k hk
      refine hkpushed ((hpushed_mem k).mpr ⟨hka, ?_, ?_⟩)
      · rw [hd]
        omega
      · rw [hd, hcnt k]
        omega
    · omega
  · -- sorted
    intro e he hv htgt
    rw [hSids'] at htgt ⊢
    rcases List.mem_append.mp htgt with htgt | htgt
    · exact appearsBefore_append _ _ _ _ (hinv.sorted e he hv htgt)
    · rw [List.mem_singleton] at htgt
      have hein : e ∈ inEdges nodes edges u :=
        (inEdges_mem nodes edges u e).mpr ⟨he, hv, htgt⟩
      have hsrc : e.source ∈ nodeIds S :=
        (inCount_eq_indeg_iff nodes edges (nodeIds S) u).mp hfull_u e hein
      rw [htgt]
      exact appearsBefore_concat _ _ _ hsrc

theorem kahnLoop_spec (nodes : List FlowNode) (edges : List FlowEdge)
    (nodeMap : String → Option FlowNode)
    (hbm3 : ∀ n ∈ nodes, nodeMap n.id = some n)
    (adjM : String → Option (List String))
    (hadj : ∀ k, adjM k =
      if k ∈ nodeIds nodes then some (targetsOf nodes edges k) else none)
    (fuel : Nat) :
    ∀ (q : List String) (D : String → Option Int) (S : List FlowNode),
      LoopInv nodes edges q D S →
      nodes.length - S.length ≤ fuel →
      (∀ n ∈ kahnLoop nodeMap adjM fuel q D S, n ∈ nodes) ∧
      (nodeIds (kahnLoop nodeMap adjM fuel q D S)).Nodup ∧
      (∀ e ∈ edges, isValidEdge nodes e = true →
        e.target ∈ nodeIds (kahnLoop nodeMap adjM fuel q D S) →
        appearsBefore (nodeIds (kahnLoop nodeMap adjM fuel q D S))
          e.source e.target) ∧
      (∀ k ∈ nodeIds nodes, k ∉ nodeIds (kahnLoop nodeMap adjM fuel q D S) →
        ∃ e ∈ edges, isValidEdge nodes e = true ∧ e.target = k ∧
          e.source ∉ nodeIds (kahnLoop nodeMap adjM fuel q D S)) ∧
      (∀ extra, kahnLoop nodeMap adjM (fuel + extra) q D S =
        kahnLoop nodeMap adjM fuel q D S) := by
  induction fuel with
  | zero =>
    intro q D S hinv hfuel
    cases q with
    | nil =>
      rw [kahnLoop_nil]
      obtain ⟨c1, c2, c3, c4⟩ := loopInv_final nodes edges D S hinv
      refine ⟨c1, c2, c3, c4, ?_⟩
      intro extra
      exact kahnLoop_nil _ _ _ _ _
    | cons u rest =>
      exfalso
      have := loopInv_length_lt nodes edges u rest D S hinv
      omega
  | succ fuel ih =>
    intro q D S hinv hfuel
    cases q with
    | nil =>
      rw [kahnLoop_nil]
      obtain ⟨c1, c2, c3, c4⟩ := loopInv_final nodes edges D S hinv
      refine ⟨c1, c2, c3, c4, ?_⟩
      intro extra
      exact kahnLoop_nil _ _ _ _ _
    | cons u rest =>
      have hu_ids : u ∈ nodeIds nodes := hinv.q_sub u (List.mem_cons_self _ _)
      obtain ⟨n_u, hn_u_mem, hn_u_id⟩ := List.mem_map.mp hu_ids
      have hnm : nodeMap u = some n_u := by
        rw [← hn_u_id]
        exact hbm3 n_u hn_u_mem
      have hadjL : (adjM u).getD [] = targetsOf nodes edges u := by
        rw [hadj u, if_pos hu_ids]
        rfl
      have hstep : ∀ m, kahnLoop nodeMap adjM (m + 1) (u :: rest) D S =
          kahnLoop nodeMap adjM m
            (rest ++ pushedOf D (targetsOf nodes edges u))
            ((targetsOf nodes edges u).foldl stepNeighborDeg D)
            (S ++ [n_u]) := by
        intro m
        simp only [kahnLoop, hnm, hadjL, processNeighbors_eq]
      have hinv' := loopInv_step nodes edges u rest D S n_u hinv hn_u_mem hn_u_id
      have hlt := loopInv_length_lt nodes edges u rest D S hinv
      have hfuel' : nodes.length - (S ++ [n_u]).length ≤ fuel := by
        rw [List.length_append, List.length_singleton]
        omega
      obtain ⟨c1, c2, c3, c4, c5⟩ := ih _ _ _ hinv' hfuel'
      rw [hstep fuel]
      refine ⟨c1, c2, c3, c4, ?_⟩
      intro extra
      have hadd : fuel + 1 + extra = (fuel + extra) + 1 := by omega
      rw [hadd, hstep (fuel + extra)]
      exact c5 extra

theorem inCount_nil (nodes : List FlowNode) (edges : List FlowEdge)
    (k : String) : inCount nodes edges [] k = 0 := by
  simp [inCount]

theorem initial_loopInv (nodes : List FlowNode) (edges : List FlowEdge)
    (hn : (nodeIds nodes).Nodup) (degM : String → Option Int)
    (hdegM : ∀ k, degM k =
      if k ∈ nodeIds nodes then some ((indegOf nodes edges k : Int)) else none) :
    LoopInv nodes edges (initialQueue nodes degM) degM [] := by
  have hq := initialQueue_eq nodes degM
  have hdeg_mem : ∀ n ∈ nodes, degM n.id = some ((indegOf nodes edges n.id : Int)) := by
    intro n hmem
    rw [hdegM n.id,
      if_pos (show n.id ∈ nodeIds nodes from List.mem_map_of_mem _ hmem)]
  refine ⟨?_, ?_, ?_, ?_, ?_, ?_, ?_, ?_, ?_, ?_⟩
  · -- q_sub
    intro u hu
    rw [hq] at hu
    obtain ⟨n, hn', rfl⟩ := List.mem_map.mp hu
    exact List.mem_map_of_mem _ (List.mem_of_mem_filter hn')
  · -- S_sub
    intro n hn'
    simp at hn'
  · -- S_nodup
    simp [nodeIds]
  · -- q_nodup
    rw [hq]
    exact ((List.filter_sublist _).map _).nodup hn
  · -- disj
    intro u _
    simp [nodeIds]
  · -- deg_in
    intro k hk
    rw [hdegM k, if_pos hk]
    simp only [nodeIds, List.map_nil, inCount_nil]
    simp
  · -- full_q
    intro u hu
    rw [hq] at hu
    obtain ⟨n, hn', rfl⟩ := List.mem_map.mp hu
    have hmem := List.mem_of_mem_filter hn'
    have hcond := List.of_mem_filter hn'
    rw [decide_eq_true_eq] at hcond
    rw [hdeg_mem n hmem] at hcond
    have : (indegOf nodes edges n.id : Int) = 0 := Option.some_inj.mp hcond
    simp only [nodeIds, List.map_nil, inCount_nil]
    exact_mod_cast this.symm
  · -- full_S
    intro k hk
    simp [nodeIds] at hk
  · -- missing
    intro k hk hkq _
    obtain ⟨n, hmem, rfl⟩ := List.mem_map.mp hk
    simp only [nodeIds, List.map_nil, inCount_nil]
    rcases Nat.eq_zero_or_pos (indegOf nodes edges n.id) with h | h
    case inr => exact h
    case inl =>
      exfalso
      apply hkq
      rw [hq]
      refine List.mem_map_of_mem _ (List.mem_filter.mpr ⟨hmem, ?_⟩)
      rw [decide_eq_true_eq, hdeg_mem n hmem, h]
      rfl
  · -- sorted
    intro e _ _ htgt
    simp [nodeIds] at htgt

theorem getOrderedTasksAux_core (nodes : List FlowNode) (edges : List FlowEdge)
    (hn : (nodeIds nodes).Nodup) (fuel : Nat) (hfuel : nodes.length ≤ fuel) :
    ∃ R : List FlowNode,
      (getOrderedTasksAux nodes edges fuel =
        if R.length ≠ nodes.length then
          R ++ nodes.filter (fun n => !(R.any (fun sn => sn.id == n.id)))
        else R) ∧
      (∀ n ∈ R, n ∈ nodes) ∧
      ((nodeIds R).Nodup) ∧
      (∀ e ∈ edges, isValidEdge nodes e = true → e.target ∈ nodeIds R →
        appearsBefore (nodeIds R) e.source e.target) ∧
      (∀ k ∈ nodeIds nodes, k ∉ nodeIds R →
        ∃ e ∈ edges, isValidEdge nodes e = true ∧ e.target = k ∧
          e.source ∉ nodeIds R) ∧
      (∀ extra, getOrderedTasksAux nodes edges (fuel + extra) =
        getOrderedTasksAux nodes edges fuel) := by
  have hbm1 := buildNodeMap_isSome nodes
  have hbm3 := buildNodeMap_self nodes hn
  have hadjM : ∀ k, (edges.foldl (processEdge (buildNodeMap nodes))
      ((initMaps nodes).2, (initMaps nodes).1)).1 k =
      if k ∈ nodeIds nodes then some (targetsOf nodes edges k) else none := by
    intro k
    rw [foldl_processEdge]
    have h := processEdgesAdj_spec nodes (buildNodeMap nodes) hbm1 edges
      (initMaps nodes).2 (fun _ => []) (fun k' => initMaps_snd nodes k') k
    simpa using h
  have hdegM : ∀ k, (edges.foldl (processEdge (buildNodeMap nodes))
      ((initMaps nodes).2, (initMaps nodes).1)).2 k =
      if k ∈ nodeIds nodes then some ((indegOf nodes edges k : Int)) else none := by
    intro k
    rw [foldl_processEdge]
    have h := processEdgesDeg_spec nodes (buildNodeMap nodes) hbm1 edges
      (initMaps nodes).1 (fun _ => 0) (fun k' => initMaps_fst nodes k') k
    simpa using h
  have hinv := initial_loopInv nodes edges hn
    (edges.foldl (processEdge (buildNodeMap nodes))
      ((initMaps nodes).2, (initMaps nodes).1)).2 hdegM
  obtain ⟨c1, c2, c3, c4, c5⟩ := kahnLoop_spec nodes edges (buildNodeMap nodes)
    hbm3
    (edges.foldl (processEdge (buildNodeMap nodes))
      ((initMaps nodes).2, (initMaps nodes).1)).1 hadjM fuel
    (initialQueue nodes
      (edges.foldl (processEdge (buildNodeMap nodes))
        ((initMaps nodes).2, (initMaps nodes).1)).2)
    (edges.foldl (processEdge (buildNodeMap nodes))
      ((initMaps nodes).2, (initMaps nodes).1)).2
    [] hinv (by simpa using hfuel)
  refine ⟨kahnLoop (buildNodeMap nodes)
      (edges.foldl (processEdge (buildNodeMap nodes))
        ((initMaps nodes).2, (initMaps nodes).1)).1 fuel
      (initialQueue nodes
        (edges.foldl (processEdge (buildNodeMap nodes))
          ((initMaps nodes).2, (initMaps nodes).1)).2)
      (edges.foldl (processEdge (buildNodeMap nodes))
        ((initMaps nodes).2, (initMaps nodes).1)).2
      [], rfl, c1, c2, c3, c4, ?_⟩
  intro extra
  show getOrderedTasksAux nodes edges (fuel + extra) = _
  rw [getOrderedTasksAux, getOrderedTasksAux]
  rw [c5 extra]

/-! ## Claim theorems: the Linearizer -/

/-- C1: For every list of nodes with pairwise-distinct ids and every
list of edges — self-loops, parallel edges, cycles, and edges whose
source or target id is absent from the node list included —
`getOrderedTasks nodes edges` terminates (running the loop with any fuel
beyond the `2 * nodes.length` bound returns the same result) and returns
a sequence in which every input node's id appears exactly once: its id
sequence is a permutation of the input id sequence. -/
theorem getOrderedTasks_total :
    ∀ (nodes : List FlowNode) (edges : List FlowEdge),
      (nodeIds nodes).Nodup →
      (nodeIds (getOrderedTasks nodes edges)).Perm (nodeIds nodes) ∧
      (∀ extra, getOrderedTasksAux nodes edges (2 * nodes.length + extra) =
        getOrderedTasks nodes edges) := by
  intro nodes edges hn
  obtain ⟨R, heq, c1, c2, _, _, c5⟩ :=
    getOrderedTasksAux_core nodes edges hn (2 * nodes.length) (by omega)
  have heq' : getOrderedTasks nodes edges =
      (if R.length ≠ nodes.length then
        R ++ nodes.filter (fun n => !(R.any (fun sn => sn.id == n.id)))
      else R) := heq
  refine ⟨?_, fun extra => c5 extra⟩
  have hRsub : nodeIds R ⊆ nodeIds nodes := by
    intro k hk
    obtain ⟨n, hnR, rfl⟩ := List.mem_map.mp hk
    exact List.mem_map_of_mem _ (c1 n hnR)
  rw [heq']
  by_cases hlen : R.length = nodes.length
  · rw [if_neg (fun h => h hlen)]
    have hsp : (nodeIds R).Subperm (nodeIds nodes) := c2.subperm hRsub
    apply hsp.perm_of_length_le
    have h1 : (nodeIds R).length = R.length := by simp [nodeIds]
    have h2 : (nodeIds nodes).length = nodes.length := by simp [nodeIds]
    omega
  · rw [if_pos hlen]
    have hA : (List.map (fun n => n.id) R).Perm
        ((nodes.filter (fun n => R.any (fun sn => sn.id == n.id))).map
          (fun n => n.id)) := by
      apply List.Subperm.antisymm
      · apply List.Nodup.subperm c2
        intro k hk
        obtain ⟨n, hnR, rfl⟩ := List.mem_map.mp hk
        refine List.mem_map_of_mem _ (List.mem_filter.mpr ⟨c1 n hnR, ?_⟩)
        exact List.any_eq_true.mpr ⟨n, hnR, by simp⟩
      · apply List.Nodup.subperm
        · exact ((List.filter_sublist _).map _).nodup hn
        · intro k hk
          obtain ⟨n, hnf, rfl⟩ := List.mem_map.mp hk
          have hcond := List.of_mem_filter hnf
          obtain ⟨sn, hsnR, hsneq⟩ := List.any_eq_true.mp hcond
          rw [beq_iff_eq] at hsneq
          rw [← hsneq]
          exact List.mem_map_of_mem _ hsnR
    have hB : (((nodes.filter (fun n => R.any (fun sn => sn.id == n.id))).map
          (fun n => n.id)) ++
        ((nodes.filter (fun n => !(R.any (fun sn => sn.id == n.id)))).map
          (fun n => n.id))).Perm (nodeIds nodes) := by
      have hperm :=
        List.filter_append_perm (fun n => R.any (fun sn => sn.id == n.id)) nodes
      have h2 := hperm.map (fun n => n.id)
      rw [List.map_append] at h2
      exact h2
    have hgoal : nodeIds (R ++
        nodes.filter (fun n => !(R.any (fun sn => sn.id == n.id)))) =
        List.map (fun n => n.id) R ++
          (nodes.filter (fun n => !(R.any (fun sn => sn.id == n.id)))).map
            (fun n => n.id) := by
      simp [nodeIds]
    rw [hgoal]
    exact (hA.append_right _).trans hB

/-- Sample node used by the concrete witnesses below. -/
def wNode (i : String) : FlowNode :=
  { id := i, type := "text", position := { x := 0, y := 0 },
    data := { label := i } }

/-- Sample edge used by the concrete witnesses below. -/
def wEdge (i s t : String) : FlowEdge := { id := i, source := s, target := t }

/-- Witness for C1: a two-node cycle (with a self-loop added) still
yields each id exactly once. -/
theorem getOrderedTasks_total_witness :
    (nodeIds [wNode "1", wNode "2"]).Nodup ∧
    (nodeIds (getOrderedTasks [wNode "1", wNode "2"]
        [wEdge "a" "1" "2", wEdge "b" "2" "1", wEdge "c" "1" "1"])).Perm
      (nodeIds [wNode "1", wNode "2"]) :=
  ⟨by decide,
   (getOrderedTasks_total [wNode "1", wNode "2"]
     [wEdge "a" "1" "2", wEdge "b" "2" "1", wEdge "c" "1" "1"]
     (by decide)).1⟩

/-- C2: on an acyclic graph with pairwise-distinct node ids, for every
edge whose endpoints are both present, the source appears strictly
before the target in `getOrderedTasks`; and an edge referencing an id
absent from the node list is ignored: inserting it anywhere in the edge
list leaves the result unchanged. -/
theorem getOrderedTasks_topological :
    (∀ (nodes : List FlowNode) (edges : List FlowEdge) (e : FlowEdge),
      (nodeIds nodes).Nodup → AcyclicRanked nodes edges → e ∈ edges →
      e.source ∈ nodeIds nodes → e.target ∈ nodeIds nodes →
      appearsBefore (nodeIds (getOrderedTasks nodes edges))
        e.source e.target) ∧
    (∀ (nodes : List FlowNode) (l₁ l₂ : List FlowEdge) (e' : FlowEdge),
      (e'.source ∉ nodeIds nodes ∨ e'.target ∉ nodeIds nodes) →
      getOrderedTasks nodes (l₁ ++ e' :: l₂) =
        getOrderedTasks nodes (l₁ ++ l₂)) := by
  constructor
  · intro nodes edges e hn hacyc he hsrc htgt
    obtain ⟨rank, hrank⟩ := hacyc
    obtain ⟨R, heq, c1, c2, c3, c4, _⟩ :=
      getOrderedTasksAux_core nodes edges hn (2 * nodes.length) (by omega)
    have hall : ∀ m, ∀ k ∈ nodeIds nodes, rank k < m → k ∈ nodeIds R := by
      intro m
      induction m with
      | zero => intro k _ h; omega
      | succ m ihm =>
        intro k hk hlt
        by_contra hkR
        obtain ⟨e2, he2, hv2, htgt2, hsrc2⟩ := c4 k hk hkR
        have hsrcids : e2.source ∈ nodeIds nodes := by
          rw [isValidEdge] at hv2
          simp at hv2
          exact hv2.1
        have hr := hrank e2 he2 hv2
        rw [htgt2] at hr
        exact hsrc2 (ihm e2.source hsrcids (by omega))
    have hcomp : ∀ k ∈ nodeIds nodes, k ∈ nodeIds R := by
      intro k hk
      exact hall (rank k + 1) k hk (by omega)
    have hRsub : nodeIds R ⊆ nodeIds nodes := by
      intro k hk
      obtain ⟨n, hnR, rfl⟩ := List.mem_map.mp hk
      exact List.mem_map_of_mem _ (c1 n hnR)
    have hlen1 := nodup_subset_length_le c2 hRsub
    have hlen2 := nodup_subset_length_le hn hcomp
    have hlen : R.length = nodes.length := by
      have h1 : (nodeIds R).length = R.length := by simp [nodeIds]
      have h2 : (nodeIds nodes).length = nodes.length := by simp [nodeIds]
      omega
    have heq' : getOrderedTasks nodes edges =
        (if R.length ≠ nodes.length then
          R ++ nodes.filter (fun n => !(R.any (fun sn => sn.id == n.id)))
        else R) := heq
    rw [heq', if_neg (fun h => h hlen)]
    have hv : isValidEdge nodes e = true := by
      rw [isValidEdge]
      simp [hsrc, htgt]
    exact c3 e he hv (hcomp e.target htgt)
  · intro nodes l₁ l₂ e' hstale
    have hcond : ((buildNodeMap nodes e'.source).isSome &&
        (buildNodeMap nodes e'.target).isSome) = false := by
      rcases hstale with h | h
      · have hs : (buildNodeMap nodes e'.source).isSome = false := by
          rw [← Bool.not_eq_true, buildNodeMap_isSome]
          exact h
        rw [hs, Bool.false_and]
      · have ht : (buildNodeMap nodes e'.target).isSome = false := by
          rw [← Bool.not_eq_true, buildNodeMap_isSome]
          exact h
        rw [ht, Bool.and_false]
    have hpe : ∀ p, processEdge (buildNodeMap nodes) p e' = p := by
      intro p
      rw [processEdge, hcond]
      rfl
    rw [getOrderedTasks, getOrderedTasks]
    simp only [getOrderedTasksAux]
    rw [List.foldl_append, List.foldl_append, List.foldl_cons, hpe]

/-- Witness for C2: with nodes listed as [2, 1] and the edge 1 → 2, the
source 1 still precedes the target 2; a stale edge into an absent node
"9" changes nothing. -/
theorem getOrderedTasks_topological_witness :
    appearsBefore
      (nodeIds (getOrderedTasks [wNode "2", wNode "1"] [wEdge "a" "1" "2"]))
      "1" "2" ∧
    getOrderedTasks [wNode "2", wNode "1"]
        ([] ++ wEdge "s" "1" "9" :: [wEdge "a" "1" "2"]) =
      getOrderedTasks [wNode "2", wNode "1"] ([] ++ [wEdge "a" "1" "2"]) :=
  ⟨getOrderedTasks_topological.1 [wNode "2", wNode "1"] [wEdge "a" "1" "2"]
      (wEdge "a" "1" "2") (by decide)
      ⟨fun s => if s = "1" then 0 else 1, by decide⟩
      (by decide) (by decide) (by decide),
   getOrderedTasks_topological.2 [wNode "2", wNode "1"] []
      [wEdge "a" "1" "2"] (wEdge "s" "1" "9") (Or.inr (by decide))⟩

/-! ## Claim theorems: TaskOrderController -/

/-- The reconciliation effect collapses to a plain recomputation: when
the comparison finds "no change", the previous `taskOrder` already
equals the recomputed id list, so the effect always ends in the
recomputed linearization (or `[]` for an empty node list). -/
theorem recomputeTaskOrder_eq (nodes : List FlowNode) (edges : List FlowEdge)
    (t : List String) :
    recomputeTaskOrder nodes edges t =
      if nodes.isEmpty then []
      else (getOrderedTasks nodes edges).map (fun n => n.id) := by
  rw [recomputeTaskOrder]
  by_cases hne : nodes.isEmpty
  · simp [hne]
  · rw [if_neg hne, if_neg hne]
    by_cases hch : ((getOrderedTasks nodes edges).map (fun n => n.id)).length ≠
        t.length ∨
        ∃ i : Fin ((getOrderedTasks nodes edges).map (fun n => n.id)).length,
          t.get? i.val ≠
            some (((getOrderedTasks nodes edges).map (fun n => n.id)).get i)
    · rw [if_pos hch]
    · rw [if_neg hch]
      push_neg at hch
      obtain ⟨hlen, hpt⟩ := hch
      apply List.ext_get?
      intro n
      by_cases hlt : n < ((getOrderedTasks nodes edges).map (fun n => n.id)).length
      · rw [hpt ⟨n, hlt⟩]
        exact (List.get?_eq_get hlt).symm
      · rw [List.get?_eq_none.mpr (by omega), List.get?_eq_none.mpr (by omega)]

/-- C4 (amended): the reconciliation effect never preserves a manual
drag-reorder on a nodes/edges change — its result is independent of the
previous task order, so any run whose recomputed order differs from the
manual sequence overwrites it. -/
theorem recomputeTaskOrder_ignores_manual_order :
    ∀ (nodes : List FlowNode) (edges : List FlowEdge) (t t' : List String),
      recomputeTaskOrder nodes edges t = recomputeTaskOrder nodes edges t' := by
  intro nodes edges t t'
  rw [recomputeTaskOrder_eq, recomputeTaskOrder_eq]

/-- C4 counterexample: with nodes 1, 2, 3 and no edges, the list is
[1,2,3]; a manual drag moves 3 to the front ([3,1,2]); a reconciliation
run for a pure position change of node 1 (same ids, same edges) resets
the order to [1,2,3], discarding the manual sequence. -/
theorem manual_order_reset_counterexample :
    handleDragEnd
        (recomputeTaskOrder [wNode "1", wNode "2", wNode "3"] [] []) "3" "1" =
      ["3", "1", "2"] ∧
    recomputeTaskOrder
        [{ wNode "1" with position := { x := 5, y := 5 } }, wNode "2", wNode "3"]
        [] ["3", "1", "2"] = ["1", "2", "3"] ∧
    (["1", "2", "3"] : List String) ≠ ["3", "1", "2"] := by
  refine ⟨?_, ?_, by decide⟩
  · decide
  · decide

/-- C3 (code bug, evaluated at the failing input): start from nodes 1, 2
with the edge 1 → 2; break-from-order on node 1 removes every incident
edge; yet on the next reconciliation node 1 is still in the sorted
partition and the unsorted partition is empty, although node 1 is an
endpoint of no surviving edge — the handler's own success message
("moved to unsorted tasks") promises the opposite. -/
theorem breakSort_keeps_node_in_sorted_partition :
    breakSort "1" [wEdge "a" "1" "2"] = [] ∧
    recomputeTaskOrder [wNode "1", wNode "2"]
        (breakSort "1" [wEdge "a" "1" "2"])
        (recomputeTaskOrder [wNode "1", wNode "2"] [wEdge "a" "1" "2"] []) =
      ["1", "2"] ∧
    wNode "1" ∈ sortedTasks [wNode "1", wNode "2"] ["1", "2"] ∧
    unsortedTasks [wNode "1", wNode "2"] ["1", "2"] = [] ∧
    (∀ e ∈ breakSort "1" [wEdge "a" "1" "2"],
      e.source ≠ "1" ∧ e.target ≠ "1") := by
  refine ⟨by decide, by decide, by decide, by decide, by decide⟩

/-! ## Claim theorems: PersistenceCoordinator -/

/-- C5 counterexample: the session is now at uuid "uuid-Y" (empty
canvas, tag "y"); the late response to the earlier load request for
"uuid-X" carries different data and is applied wholesale — nodes, tag
and even the active identifier change although the request uuid differs
from the active one. -/
theorem stale_load_response_applied :
    ("uuid-X" ≠
      (SessionState.mk [] [] "y" "uuid-Y" false).uuid) ∧
    (applyLoadResponse (SessionState.mk [] [] "y" "uuid-Y" false) "uuid-X"
        (LoadResponse.mk (some [wNode "1"]) (some []) "x" "uuid-X")).nodes ≠
      (SessionState.mk [] [] "y" "uuid-Y" false).nodes ∧
    (applyLoadResponse (SessionState.mk [] [] "y" "uuid-Y" false) "uuid-X"
        (LoadResponse.mk (some [wNode "1"]) (some []) "x" "uuid-X")).tag ≠
      (SessionState.mk [] [] "y" "uuid-Y" false).tag ∧
    (applyLoadResponse (SessionState.mk [] [] "y" "uuid-Y" false) "uuid-X"
        (LoadResponse.mk (some [wNode "1"]) (some []) "x" "uuid-X")).uuid ≠
      (SessionState.mk [] [] "y" "uuid-Y" false).uuid := by
  refine ⟨by decide, by decide, by decide, by decide⟩

/-- C5 (amended): the load-response handler never compares the request's
identifier with the active one.  A response whose tag differs from the
current tag is applied wholesale; the active identifier is always
overwritten with the response's uuid and the unsaved flag cleared; only
a response matching the current node count, edge count and tag leaves
nodes, edges and tag untouched (while still overwriting the uuid). -/
theorem loadFlowchart_no_stale_guard :
    (∀ (st : SessionState) (requestUuid : String) (data : LoadResponse),
      st.tag ≠ data.tag →
      (applyLoadResponse st requestUuid data).nodes = data.nodes.getD [] ∧
      (applyLoadResponse st requestUuid data).edges = data.edges.getD [] ∧
      (applyLoadResponse st requestUuid data).tag = data.tag) ∧
    (∀ (st : SessionState) (requestUuid : String) (data : LoadResponse),
      (applyLoadResponse st requestUuid data).uuid = data.uuid ∧
      (applyLoadResponse st requestUuid data).hasUnsavedChanges = false) ∧
    (∀ (st : SessionState) (requestUuid : String) (data : LoadResponse),
      data.nodes.map List.length = some st.nodes.length →
      data.edges.map List.length = some st.edges.length →
      st.tag = data.tag →
      (applyLoadResponse st requestUuid data).nodes = st.nodes ∧
      (applyLoadResponse st requestUuid data).edges = st.edges ∧
      (applyLoadResponse st requestUuid data).tag = st.tag) := by
  refine ⟨?_, ?_, ?_⟩
  · intro st requestUuid data htag
    rw [applyLoadResponse]
    rw [if_pos (Or.inr (Or.inr htag))]
    exact ⟨rfl, rfl, rfl⟩
  · intro st requestUuid data
    rw [applyLoadResponse]
    split <;> exact ⟨rfl, rfl⟩
  · intro st requestUuid data hn he htag
    rw [applyLoadResponse]
    rw [if_neg ?hcond]
    case hcond =>
      push_neg
      exact ⟨hn, he, htag⟩
    exact ⟨rfl, rfl, rfl⟩

/-- Witness for C5 (amended), at concrete states: a tag-differing
response is applied; the uuid is always overwritten; a matching
response leaves the data alone. -/
theorem loadFlowchart_no_stale_guard_witness :
    (("y" : String) ≠ "x" ∧
      (applyLoadResponse (SessionState.mk [] [] "y" "uuid-Y" false) "uuid-X"
        (LoadResponse.mk (some [wNode "1"]) (some []) "x" "uuid-X")).nodes =
          (some [wNode "1"]).getD []) ∧
    (applyLoadResponse (SessionState.mk [] [] "y" "uuid-Y" false) "uuid-X"
        (LoadResponse.mk (some [wNode "1"]) (some []) "x" "uuid-X")).uuid =
      "uuid-X" ∧
    ((some ([] : List FlowNode)).map List.length =
        some (SessionState.mk [] [] "y" "uuid-Y" false).nodes.length ∧
      (applyLoadResponse (SessionState.mk [] [] "y" "uuid-Y" false) "uuid-X"
        (LoadResponse.mk (some []) (some []) "y" "uuid-X")).nodes = []) :=
  ⟨⟨by decide,
    (loadFlowchart_no_stale_guard.1 (SessionState.mk [] [] "y" "uuid-Y" false)
      "uuid-X" (LoadResponse.mk (some [wNode "1"]) (some []) "x" "uuid-X")
      (by decide)).1⟩,
   (loadFlowchart_no_stale_guard.2.1 (SessionState.mk [] [] "y" "uuid-Y" false)
      "uuid-X" (LoadResponse.mk (some [wNode "1"]) (some []) "x" "uuid-X")).1,
   ⟨by decide,
    (loadFlowchart_no_stale_guard.2.2 (SessionState.mk [] [] "y" "uuid-Y" false)
      "uuid-X" (LoadResponse.mk (some []) (some []) "y" "uuid-X")
      (by decide) (by decide) (by decide)).1⟩⟩

/-! ## Claim theorems: the connect handler -/

theorem edgeCandidate_inj (a b : Nat)
    (h : "edge-" ++ natToString a = "edge-" ++ natToString b) : a = b := by
  apply natToString_inj
  have hd : ("edge-" ++ natToString a).data = ("edge-" ++ natToString b).data :=
    congrArg String.data h
  rw [String.data_append, String.data_append] at hd
  exact String.ext (List.append_cancel_left hd)

theorem freshEdgeId_fresh (edges : List FlowEdge) :
    ∀ e ∈ edges, e.id ≠ freshEdgeId edges := by
  have hex : ∃ k ∈ List.range (edges.length + 1),
      (!(edges.any (fun e => e.id == "edge-" ++ natToString k))) = true := by
    by_contra hco
    push_neg at hco
    have hall : ∀ k ∈ List.range (edges.length + 1),
        ("edge-" ++ natToString k) ∈ edges.map (fun e => e.id) := by
      intro k hk
      have h1 := hco k hk
      have h1' : (edges.any fun e => e.id == "edge-" ++ natToString k) = true := by
        cases hb : (edges.any fun e => e.id == "edge-" ++ natToString k)
        · exact absurd (by rw [hb]; rfl) h1
        · rfl
      obtain ⟨e, he, heq⟩ := List.any_eq_true.mp h1'
      rw [beq_iff_eq] at heq
      rw [← heq]
      exact List.mem_map_of_mem _ he
    have hsub : (List.range (edges.length + 1)).map
        (fun k => "edge-" ++ natToString k) ⊆ edges.map (fun e => e.id) := by
      intro s hs
      obtain ⟨k, hk, rfl⟩ := List.mem_map.mp hs
      exact hall k hk
    have hnd : ((List.range (edges.length + 1)).map
        (fun k => "edge-" ++ natToString k)).Nodup :=
      List.Nodup.map (fun a b h => edgeCandidate_inj a b h) (List.nodup_range _)
    have hlen := nodup_subset_length_le hnd hsub
    simp only [List.length_map, List.length_range] at hlen
    omega
  obtain ⟨k₀, hfind⟩ : ∃ k₀, (List.range (edges.length + 1)).find?
      (fun k => !(edges.any (fun e => e.id == "edge-" ++ natToString k))) =
        some k₀ := by
    obtain ⟨k, hk, hpk⟩ := hex
    have hsome : ((List.range (edges.length + 1)).find?
        (fun k => !(edges.any (fun e => e.id == "edge-" ++ natToString k)))).isSome :=
      List.find?_isSome.mpr ⟨k, hk, hpk⟩
    exact Option.isSome_iff_exists.mp hsome
  have hpk₀ := List.find?_some hfind
  rw [Bool.not_eq_true', List.any_eq_false] at hpk₀
  intro e he heq
  have := hpk₀ e he
  rw [freshEdgeId, hfind] at heq
  rw [heq] at this
  simp at this

theorem any_id_eq_mem (nodes : List FlowNode) (s : String) :
    (nodes.any (fun n => n.id == s)) = true ↔ s ∈ nodeIds nodes := by
  rw [List.any_eq_true]
  constructor
  · rintro ⟨n, hn, heq⟩
    rw [beq_iff_eq] at heq
    rw [← heq]
    exact List.mem_map_of_mem _ hn
  · intro hs
    obtain ⟨n, hn, rfl⟩ := List.mem_map.mp hs
    exact ⟨n, hn, by simp⟩

/-- C6: the connect handler with the spec-modelled edge-append helper: a
connection with an absent endpoint is a silent no-op (the edge list is
returned unchanged); with both endpoints present the edge is appended
carrying a fresh id (distinct from every existing edge id), the default
arrowhead marker and stroke style; and self-loops are appended like any
other connection (the append never inspects the existing edges for
duplicates, so parallel edges are permitted). -/
theorem onConnect_spec :
    (∀ (nodes : List FlowNode) (edges : List FlowEdge) (conn : FlowConnection),
      conn.source ∉ nodeIds nodes ∨ conn.target ∉ nodeIds nodes →
      onConnect nodes edges conn = edges) ∧
    (∀ (nodes : List FlowNode) (edges : List FlowEdge) (conn : FlowConnection),
      conn.source ∈ nodeIds nodes → conn.target ∈ nodeIds nodes →
      onConnect nodes edges conn = edges ++
        [{ id := freshEdgeId edges, source := conn.source,
           target := conn.target, sourceHandle := conn.sourceHandle,
           targetHandle := conn.targetHandle, markerEnd := some defaultMarker,
           style := some defaultStyle }] ∧
      (∀ e ∈ edges, e.id ≠ freshEdgeId edges)) ∧
    (∀ (nodes : List FlowNode) (edges : List FlowEdge) (s : String),
      s ∈ nodeIds nodes →
      (onConnect nodes edges
        { source := s, target := s }).length = edges.length + 1) := by
  have hcond : ∀ (nodes : List FlowNode) (conn : FlowConnection),
      (nodes.any (fun n => n.id == conn.source) &&
        nodes.any (fun n => n.id == conn.target)) = true ↔
      (conn.source ∈ nodeIds nodes ∧ conn.target ∈ nodeIds nodes) := by
    intro nodes conn
    rw [Bool.and_eq_true, any_id_eq_mem, any_id_eq_mem]
  refine ⟨?_, ?_, ?_⟩
  · intro nodes edges conn habs
    rw [onConnect, addEdgeModelled, if_neg]
    intro h
    rcases habs with h' | h'
    · exact h' ((hcond nodes conn).mp h).1
    · exact h' ((hcond nodes conn).mp h).2
  · intro nodes edges conn hs ht
    rw [onConnect, addEdgeModelled, if_pos ((hcond nodes conn).mpr ⟨hs, ht⟩)]
    exact ⟨rfl, freshEdgeId_fresh edges⟩
  · intro nodes edges s hs
    rw [onConnect, addEdgeModelled,
      if_pos ((hcond nodes { source := s, target := s }).mpr ⟨hs, hs⟩)]
    simp

/-- Witness for C6: an edge to the absent node "9" is dropped; a
present-endpoint connection (a self-loop, with an equal parallel edge
already present) is appended with a fresh id and the default marker. -/
theorem onConnect_spec_witness :
    ((wEdge "x" "1" "9").target ∉ nodeIds [wNode "1", wNode "2"] ∧
      onConnect [wNode "1", wNode "2"] []
        { source := "1", target := "9" } = []) ∧
    ("1" : String) ∈ nodeIds [wNode "1", wNode "2"] ∧
    (onConnect [wNode "1", wNode "2"] [wEdge "edge-0" "1" "1"]
      { source := "1", target := "1" }).length =
        [wEdge "edge-0" "1" "1"].length + 1 :=
  ⟨⟨by decide,
    onConnect_spec.1 [wNode "1", wNode "2"] []
      { source := "1", target := "9" } (Or.inr (by decide))⟩,
   by decide,
   onConnect_spec.2.2 [wNode "1", wNode "2"] [wEdge "edge-0" "1" "1"] "1"
     (by decide)⟩

/-! ## Claim theorems: id allocation -/

/-- C7 (code bug): fresh node ids are not collision-free on the
out-of-band ids the claim covers.  With the pairwise-distinct node ids
"9007199254740992" and "9007199254740993", `parseInt` maps both to the
float64 `2^53` (the exact value `2^53 + 1` is not representable; the tie
rounds to the even neighbour), the bump `maxId + 1` rounds straight back
to `2^53`, and `getId` renders "9007199254740992" — an id already
present — so the following `addNode` produces a duplicate node id. -/
theorem node_id_collision :
    (nodeIds [wNode "9007199254740992", wNode "9007199254740993"]).Nodup ∧
    (getId [wNode "9007199254740992", wNode "9007199254740993"]
      (JsNum.fin 1)).1 = "9007199254740992" ∧
    "9007199254740992" ∈
      nodeIds [wNode "9007199254740992", wNode "9007199254740993"] ∧
    ¬ (nodeIds (applyOps
        (EditorState.mk [wNode "9007199254740992", wNode "9007199254740993"]
          (JsNum.fin 1))
        [GraphOp.add "text" { x := 0, y := 0 }]).nodes).Nodup := by
  exact ⟨by decide, by decide, by decide, by decide⟩

/-! ## Claim theorems: deletion, save validation, cache cleanup -/

/-- C8: deleting (or cutting — both run the same two filters) node X
removes, in the same operation, every edge incident to X: no surviving
edge references X, an edge survives iff it was present and touches X on
neither end, the survivors keep their original relative order, the
break-sort edge filter coincides with the deletion edge filter, and a
node survives iff its id is not X. -/
theorem deleteNode_cascades :
    ∀ (X : String) (nodes : List FlowNode) (edges : List FlowEdge),
      (∀ e ∈ (deleteNode X nodes edges).2, e.source ≠ X ∧ e.target ≠ X) ∧
      (∀ e, e ∈ (deleteNode X nodes edges).2 ↔
        (e ∈ edges ∧ e.source ≠ X ∧ e.target ≠ X)) ∧
      (deleteNode X nodes edges).2.Sublist edges ∧
      breakSort X edges = (deleteNode X nodes edges).2 ∧
      (∀ n, n ∈ (deleteNode X nodes edges).1 ↔ (n ∈ nodes ∧ n.id ≠ X)) := by
  intro X nodes edges
  refine ⟨?_, ?_, ?_, rfl, ?_⟩
  · intro e he
    have h := List.of_mem_filter he
    simp only [Bool.and_eq_true, decide_eq_true_eq] at h
    exact h
  · intro e
    rw [deleteNode]
    simp only [List.mem_filter, Bool.and_eq_true, decide_eq_true_eq]
  · exact List.filter_sublist _
  · intro n
    rw [deleteNode]
    simp only [List.mem_filter, decide_eq_true_eq]

/-- Witness for C8 at a concrete graph: deleting node 1 removes both its
incident edges and keeps the unrelated edge 2 → 3. -/
theorem deleteNode_cascades_witness :
    (∀ e ∈ (deleteNode "1" [wNode "1", wNode "2", wNode "3"]
        [wEdge "a" "1" "2", wEdge "b" "3" "1", wEdge "c" "2" "3"]).2,
      e.source ≠ "1" ∧ e.target ≠ "1") ∧
    (wEdge "c" "2" "3" ∈ (deleteNode "1" [wNode "1", wNode "2", wNode "3"]
        [wEdge "a" "1" "2", wEdge "b" "3" "1", wEdge "c" "2" "3"]).2 ↔
      (wEdge "c" "2" "3" ∈
          [wEdge "a" "1" "2", wEdge "b" "3" "1", wEdge "c" "2" "3"] ∧
        (wEdge "c" "2" "3").source ≠ "1" ∧ (wEdge "c" "2" "3").target ≠ "1")) :=
  ⟨(deleteNode_cascades "1" [wNode "1", wNode "2", wNode "3"]
      [wEdge "a" "1" "2", wEdge "b" "3" "1", wEdge "c" "2" "3"]).1,
   (deleteNode_cascades "1" [wNode "1", wNode "2", wNode "3"]
      [wEdge "a" "1" "2", wEdge "b" "3" "1", wEdge "c" "2" "3"]).2.1
     (wEdge "c" "2" "3")⟩

/-- C9: `confirmSave` rejects an empty tag or an empty canvas before the
network request is issued, leaving the session state (nodes, edges, tag
included) exactly as it was; and whenever the request is issued the tag
is non-empty, at least one node exists, and the request carries the
current nodes and edges and the given tag, with nodes, edges and tag
still unchanged in the session state. -/
theorem confirmSave_validation :
    (∀ (st : SessionState) (ready : Bool) (tag freshUuid : String),
      tag = "" ∨ st.nodes = [] →
      (confirmSave st ready tag freshUuid).1.issued = false ∧
      (confirmSave st ready tag freshUuid).2 = st) ∧
    (∀ (st : SessionState) (ready : Bool) (tag freshUuid : String)
        (ns : List FlowNode) (es : List FlowEdge) (t u : String),
      (confirmSave st ready tag freshUuid).1 =
        SaveOutcome.requestIssued ns es t u →
      tag ≠ "" ∧ st.nodes ≠ [] ∧ ns = st.nodes ∧ es = st.edges ∧ t = tag ∧
      (confirmSave st ready tag freshUuid).2.nodes = st.nodes ∧
      (confirmSave st ready tag freshUuid).2.edges = st.edges ∧
      (confirmSave st ready tag freshUuid).2.tag = st.tag) := by
  constructor
  · intro st ready tag freshUuid hrej
    rw [confirmSave]
    by_cases htag : tag = ""
    · rw [if_pos htag]
      exact ⟨rfl, rfl⟩
    · rw [if_neg htag]
      have hempty : st.nodes = [] := hrej.resolve_left htag
      cases ready with
      | false => exact ⟨rfl, rfl⟩
      | true =>
        rw [if_neg (by simp)]
        rw [if_pos (by rw [hempty]; rfl)]
        exact ⟨rfl, rfl⟩
  · intro st ready tag freshUuid ns es t u hiss
    rw [confirmSave] at hiss
    by_cases htag : tag = ""
    · rw [if_pos htag] at hiss
      exact absurd hiss (by simp)
    · rw [if_neg htag] at hiss
      cases ready with
      | false => exact absurd hiss (by simp)
      | true =>
        rw [if_neg (by simp)] at hiss
        by_cases hempty : st.nodes.isEmpty
        · rw [if_pos hempty] at hiss
          exact absurd hiss (by simp)
        · rw [if_neg hempty] at hiss
          have hne : st.nodes ≠ [] := by
            intro h
            exact hempty (by rw [h]; rfl)
          obtain ⟨h1, h2, h3, -⟩ := SaveOutcome.requestIssued.inj hiss
          have hstate : (confirmSave st true tag freshUuid).2.nodes = st.nodes ∧
              (confirmSave st true tag freshUuid).2.edges = st.edges ∧
              (confirmSave st true tag freshUuid).2.tag = st.tag := by
            rw [confirmSave, if_neg htag, if_neg (show ¬((!true) = true) by simp),
              if_neg hempty]
            split
            · exact ⟨rfl, rfl, rfl⟩
            · exact ⟨rfl, rfl, rfl⟩
          exact ⟨htag, hne, h1.symm, h2.symm, h3.symm, hstate.1, hstate.2.1,
            hstate.2.2⟩

/-- Witness for C9: an empty tag is rejected with the state intact; a
proper tag on a non-empty canvas issues the request with the current
data. -/
theorem confirmSave_validation_witness :
    ((("" : String) = "" ∨
        (SessionState.mk [wNode "1"] [] "t" "u" false).nodes = []) ∧
      (confirmSave (SessionState.mk [wNode "1"] [] "t" "u" false)
          true "" "fresh").2 = SessionState.mk [wNode "1"] [] "t" "u" false) ∧
    ((confirmSave (SessionState.mk [wNode "1"] [] "t" "u" false)
        true "tag" "fresh").1 =
          SaveOutcome.requestIssued [wNode "1"] [] "tag" "u" ∧
      ("tag" : String) ≠ "") :=
  ⟨⟨Or.inl rfl,
    (confirmSave_validation.1 (SessionState.mk [wNode "1"] [] "t" "u" false)
      true "" "fresh" (Or.inl rfl)).2⟩,
   ⟨by decide,
    (confirmSave_validation.2 (SessionState.mk [wNode "1"] [] "t" "u" false)
      true "tag" "fresh" [wNode "1"] [] "tag" "u" (by decide)).1⟩⟩

theorem cleanup_lookup_aux (now : Int) (key : String)
    (hkey : strStartsWith key localStorageNS = false) :
    ∀ store : List (String × LSValue),
      (store.filter (fun kv => !(cleanupRemoves now kv.1 kv.2))).lookup key =
        store.lookup key := by
  intro store
  induction store with
  | nil => rfl
  | cons kv t ih =>
    rw [List.filter_cons]
    by_cases hrm : cleanupRemoves now kv.1 kv.2 = true
    · rw [if_neg (by simp [hrm])]
      have hpre : strStartsWith kv.1 localStorageNS = true := by
        simp only [cleanupRemoves, Bool.and_eq_true] at hrm
        exact hrm.1
      have hne : (key == kv.1) = false := by
        rw [beq_eq_false_iff_ne]
        intro h
        rw [h, hpre] at hkey
        exact absurd hkey (by simp)
      rw [ih, List.lookup_cons, hne]
    · rw [if_pos (by simp [Bool.not_eq_true] at hrm; simp [hrm])]
      rw [List.lookup_cons, List.lookup_cons]
      cases key == kv.1 with
      | true => rfl
      | false => exact ih

/-- C10: the startup cleanup pass only ever removes localStorage entries
whose key starts with the "visual-todoflow:" namespace; the binding of
any other key (such as the auth_token credential) is left unchanged,
regardless of its content or age. -/
theorem cleanupLocalStorage_frame :
    (∀ (now : Int) (store : List (String × LSValue)) (key : String),
      strStartsWith key localStorageNS = false →
      (cleanupLocalStorage now store).lookup key = store.lookup key) ∧
    (∀ (now : Int) (store : List (String × LSValue)) (kv : String × LSValue),
      kv ∈ store → kv ∉ cleanupLocalStorage now store →
      strStartsWith kv.1 localStorageNS = true) := by
  constructor
  · intro now store key hkey
    rw [cleanupLocalStorage]
    exact cleanup_lookup_aux now key hkey store
  · intro now store kv hmem hout
    rw [cleanupLocalStorage] at hout
    have : ¬ ((!(cleanupRemoves now kv.1 kv.2)) = true) := by
      intro hkeep
      exact hout (List.mem_filter.mpr ⟨hmem, hkeep⟩)
    have hrm : cleanupRemoves now kv.1 kv.2 = true := by
      cases hb : cleanupRemoves now kv.1 kv.2
      · exact absurd (by rw [hb]; rfl) this
      · rfl
    simp only [cleanupRemoves, Bool.and_eq_true] at hrm
    exact hrm.1

/-- Witness for C10: an expired corrupt cache entry is purged while the
auth_token entry survives with its value intact. -/
theorem cleanupLocalStorage_frame_witness :
    (strStartsWith "auth_token" localStorageNS = false ∧
      (cleanupLocalStorage 0
        [("auth_token", LSValue.corrupt "tok"),
         ("visual-todoflow:abc", LSValue.record none "p")]).lookup "auth_token" =
      ([("auth_token", LSValue.corrupt "tok"),
        ("visual-todoflow:abc", LSValue.record none "p")] :
          List (String × LSValue)).lookup "auth_token") ∧
    (("visual-todoflow:abc", LSValue.record none "p") ∈
        ([("auth_token", LSValue.corrupt "tok"),
          ("visual-todoflow:abc", LSValue.record none "p")] :
            List (String × LSValue)) ∧
      ("visual-todoflow:abc", LSValue.record none "p") ∉
        cleanupLocalStorage 0
          [("auth_token", LSValue.corrupt "tok"),
           ("visual-todoflow:abc", LSValue.record none "p")] ∧
      strStartsWith "visual-todoflow:abc" localStorageNS = true) :=
  ⟨⟨by decide,
    cleanupLocalStorage_frame.1 0
      [("auth_token", LSValue.corrupt "tok"),
       ("visual-todoflow:abc", LSValue.record none "p")] "auth_token"
      (by decide)⟩,
   ⟨by decide,
    fun h => absurd (List.mem_filter.mp h).2 (by decide),
    cleanupLocalStorage_frame.2 0
      [("auth_token", LSValue.corrupt "tok"),
       ("visual-todoflow:abc", LSValue.record none "p")]
      ("visual-todoflow:abc", LSValue.record none "p")
      (by decide)
      (fun h => absurd (List.mem_filter.mp h).2 (by decide))⟩⟩
